import Mathlib

/-!
Verification of the BenNevis terrain/coordinate core against its
natural-language specification.

The development shallowly embeds the Python sources (`nevis/_bng.py`,
`nevis/_os50.py`, `nevis/_interpolation.py`) in Lean: Python floats are
modelled as exact rationals, numpy arrays of heights as total functions
`ℕ → ℕ → ℚ` together with their shape, fallible code as `Except`, and the
imperative loops as fuel-indexed structural recursions whose fuel is the
loop bound appearing in the source.
-/

-- `Rat.add`/`Rat.mul`/`Rat.sub`/`Rat.inv` are `@[irreducible]` in Batteries,
-- which blocks the `decide` evaluator on concrete rational arithmetic.
attribute [local semireducible] Rat.add Rat.mul Rat.sub Rat.inv

namespace Nevis

/-! ## Python-semantics helpers -/

/-- Python `int(q)` on a real value: truncation toward zero. -/
def pyTrunc (q : ℚ) : ℤ := Int.tdiv q.num q.den

/-- Python `a // b` (floor division). -/
def pyFloorDiv (a b : ℤ) : ℤ := Int.fdiv a b

/-- Python `a % b` (sign follows the divisor; all divisors here are positive). -/
def pyMod (a b : ℤ) : ℤ := Int.fmod a b

/-- Python sequence indexing `xs[i]` for length `n`: negative indices wrap. -/
def pyIdx (n : ℕ) (i : ℤ) : ℕ := (if i < 0 then i + n else i).toNat

/-- Python `str.strip()` (on the character list of the string). -/
def pyStrip (cs : List Char) : List Char :=
  ((cs.dropWhile Char.isWhitespace).reverse.dropWhile Char.isWhitespace).reverse

/-- Python `str.upper()` for the ASCII strings used here. -/
def pyUpper (cs : List Char) : List Char := cs.map Char.toUpper

/-- Python `str.lower()` for the ASCII strings used here. -/
def pyLower (s : String) : String := String.mk (s.data.map Char.toLower)

/-- Value of a nonempty all-digit character list. -/
def digitsVal? : List Char → Option ℕ
  | [] => some 0
  | c :: cs =>
    if c.isDigit then
      (digitsVal? cs).map (fun v => (c.toNat - '0'.toNat) * 10 ^ cs.length + v)
    else none

/-- Python `int(str)`: optional surrounding whitespace, optional sign, digits. -/
def pyIntParse (cs : List Char) : Option ℤ :=
  match pyStrip cs with
  | [] => none
  | '-' :: ds => if ds.isEmpty then none else (digitsVal? ds).map (fun v => -(v : ℤ))
  | '+' :: ds => if ds.isEmpty then none else (digitsVal? ds).map (fun v => (v : ℤ))
  | ds => (digitsVal? ds).map (fun v => (v : ℤ))

/-- Python `str.split(maxsplit=1)` with no separator: split on whitespace runs,
the second piece (when present) is the remainder kept verbatim. -/
def pySplit1 (cs : List Char) : List (List Char) :=
  let cs1 := cs.dropWhile Char.isWhitespace
  if cs1.isEmpty then []
  else
    let tok := cs1.takeWhile (fun c => !c.isWhitespace)
    let rest := (cs1.dropWhile (fun c => !c.isWhitespace)).dropWhile Char.isWhitespace
    if rest.isEmpty then [tok] else [tok, rest]

/-! ## Grid-reference model (`nevis/_bng.py`) -/

/-- Full size of the grid in meters (`width` in the source). -/
def gridWidth : ℤ := 700000

/-- Full size of the grid in meters (`height` in the source). -/
def gridHeight : ℤ := 1300000

/-- Grid letters, bottom to top, left to right (`GL` in the source). -/
def glTable : List (List Char) :=
  [['V', 'W', 'X', 'Y', 'Z'],
   ['Q', 'R', 'S', 'T', 'U'],
   ['L', 'M', 'N', 'O', 'P'],
   ['F', 'G', 'H', 'J', 'K'],
   ['A', 'B', 'C', 'D', 'E']]

/-- The two stored representations of a `Coords` object: the metric grid pair
(Python ints) and the normalised pair (Python floats). -/
structure Coords where
  gridx : ℤ
  gridy : ℤ
  normx : ℚ
  normy : ℚ
deriving DecidableEq, Repr

/-- `Coords.__init__` when `gridx`/`gridy` are given: `int()` the inputs and
derive the normalised pair by true division. -/
def coordsFromGrid (gx gy : ℚ) : Coords :=
  ⟨pyTrunc gx, pyTrunc gy,
   ((pyTrunc gx : ℤ) : ℚ) / (gridWidth : ℚ), ((pyTrunc gy : ℤ) : ℚ) / (gridHeight : ℚ)⟩

/-- `Coords.__init__` when `normx`/`normy` are given: keep the floats and
derive the metric pair by `int(norm * extent)` (truncation). -/
def coordsFromNorm (nx0 ny0 : ℚ) : Coords :=
  ⟨pyTrunc (nx0 * (gridWidth : ℚ)), pyTrunc (ny0 * (gridHeight : ℚ)), nx0, ny0⟩

/-- Full `Coords.__init__` dispatch: exactly one of the two pairs must be
supplied, otherwise a `ValueError` is raised. -/
def coordsInit (gx gy nx0 ny0 : Option ℚ) : Except String Coords :=
  match gx, gy, nx0, ny0 with
  | some a, some b, none, none => .ok (coordsFromGrid a b)
  | none, none, some a, some b => .ok (coordsFromNorm a b)
  | _, _, _, _ =>
    .error "Either (gridx and gridy) or (normx and normy) must bespecified (and not both)."

/-- The inner `find(letter)` of `Coords.from_square_with_size`: scan the rows
of `glTable` for the first row whose head is `≤` the letter (skipping `I`), then
Python `list.index` (which raises if the letter is not in that row). -/
def findLetter : List (List Char) → ℕ → Char → Except String (ℕ × ℕ)
  | [], _, _ => .error "Invalid BNG grid letter."
  | row :: rest, i, c =>
    if row.headD 'V' ≤ c ∧ c ≠ 'I' then
      match row.findIdx? (fun d => d = c) with
      | some j => .ok (i, j)
      | none => .error "Invalid BNG grid letter."
    else findLetter rest (i + 1) c

/-- Digits tail of `Coords.from_square_with_size`: given the letter-derived
corner `(x, y)`, the implied half-length `nn` and the two digit groups. -/
def fromSquareDigits (x y : ℤ) (nn : ℕ) (pa pb : List Char) : Except String (Coords × ℚ) :=
  match pyIntParse pa, pyIntParse pb with
  | some a, some b =>
    if a < 0 ∨ b < 0 then
      .error "Invalid BNG grid code: numbers must be positive."
    else
      let m : ℚ := if nn ≤ 5 then mkRat (10 ^ (5 - nn)) 1 else mkRat 1 (10 ^ (nn - 5))
      let xq : ℚ := (x : ℚ) + (a : ℚ) * m
      let yq : ℚ := (y : ℚ) + (b : ℚ) * m
      let xr : ℚ := if 1 ≤ m then ((pyTrunc xq : ℤ) : ℚ) else xq
      let yr : ℚ := if 1 ≤ m then ((pyTrunc yq : ℤ) : ℚ) else yq
      .ok (coordsFromGrid xr yr, m)
  | _, _ => .error "Invalid BNG grid code: numbers must be integers."

/-- `Coords.from_square_with_size`: parse a BNG grid reference into the
lower-left `Coords` of the named square and the square's side length. -/
def fromSquareWithSize (square : String) : Except String (Coords × ℚ) :=
  let code := pyUpper (pyStrip square.data)
  match code with
  | [] => .error "Invalid BNG grid reference: must be at least 1 letter"
  | c0 :: rest0 =>
    match findLetter glTable 0 c0 with
    | .error e => .error e
    | .ok (i, j) =>
      let x : ℤ := -1000000 + 500000 * (j : ℤ)
      let y : ℤ := -500000 + 500000 * (i : ℤ)
      match rest0 with
      | [] => .ok (coordsFromGrid (x : ℚ) (y : ℚ), 500000)
      | c1 :: rest1 =>
        match findLetter glTable 0 c1 with
        | .error e => .error e
        | .ok (i2, j2) =>
          let x := x + 100000 * (j2 : ℤ)
          let y := y + 100000 * (i2 : ℤ)
          match rest1 with
          | [] => .ok (coordsFromGrid (x : ℚ) (y : ℚ), 100000)
          | _ =>
            match pySplit1 rest1 with
            | [one] =>
              if one.length % 2 = 1 then
                .error "Invalid BNG grid code: numbers must have same number of digits."
              else
                fromSquareDigits x y (one.length / 2)
                  (one.take (one.length / 2)) (one.drop (one.length / 2))
            | [pa, pb] => fromSquareDigits x y (max pa.length pb.length) pa pb
            | _ => .error "IndexError"

/-- Result of `Coords._find_square`: the sentinel, a reference string, or an
uncaught `IndexError` escaping `glTable[a][b]` (only `KeyError` is caught there). -/
inductive FindResult where
  | offGrid : FindResult
  | ref : String → FindResult
  | indexErr : FindResult
deriving DecidableEq, Repr

/-- `glTable[a][b]` as a partial lookup; `none` models Python's `IndexError`. -/
def glLookup (a b : ℕ) : Option Char := (glTable.get? a).bind fun row => row.get? b

/-- Python `f-string` formatting `f'{n:0>5}'` for a natural number. -/
def pad5 (n : ℕ) : List Char :=
  let ds := Nat.toDigits 10 n
  List.replicate (5 - ds.length) '0' ++ ds

/-- `Coords._find_square(n)`: two letters plus `n`-digit truncations of the
easting/northing remainders; `'Off the grid'` when a division is negative. -/
def findSquare (gridx gridy : ℤ) (n : ℕ) : FindResult :=
  let x := gridx + 1000000
  let y := gridy + 500000
  let a := pyFloorDiv y 500000
  let b := pyFloorDiv x 500000
  if a < 0 ∨ b < 0 then .offGrid
  else
    match glLookup a.toNat b.toNat with
    | none => .indexErr
    | some l1 =>
      let x := pyMod x 500000
      let y := pyMod y 500000
      let a2 := pyFloorDiv y 100000
      let b2 := pyFloorDiv x 100000
      match glLookup a2.toNat b2.toNat with
      | none => .indexErr
      | some l2 =>
        let xd := pyMod x 100000
        let yd := pyMod y 100000
        .ref (String.mk ([l1, l2] ++ (pad5 xd.toNat).take n ++ (pad5 yd.toNat).take n))

/-! ## Named-feature registry (`Hill` in `nevis/_bng.py`) -/

/-- An immutable hill record (fields already converted by `int`/`float`;
the name is stored stripped). -/
structure Hill where
  x : ℤ
  y : ℤ
  rank : ℤ
  height : ℚ
  hill_id : ℤ
  name : String
deriving DecidableEq, Repr

/-- Python dict assignment `d[k] = v` on an association-list model. -/
def dictInsert {α β : Type} [DecidableEq α] (k : α) (v : β) :
    List (α × β) → List (α × β)
  | [] => [(k, v)]
  | (k0, v0) :: rest => if k0 = k then (k, v) :: rest else (k0, v0) :: dictInsert k v rest

/-- The process-wide class-level state of `Hill`: `_hills`, `_names`, `_ids`
and `_tree` (the k-d tree modelled by the coordinate list it was built from). -/
structure HillReg where
  hills : List Hill
  names : List (String × Hill)
  ids : List (ℤ × Hill)
  tree : Option (List (ℤ × ℤ))
deriving DecidableEq, Repr

/-- `Hill.__init__`: refuses to construct once the tree exists (the raised
`ValueError` leaves the registry untouched); otherwise registers the new hill
in all three collections. Returns the post-call registry and the outcome. -/
def hillInit (reg : HillReg) (x y rank : ℤ) (height : ℚ) (hill_id : ℤ)
    (name : String) : HillReg × Except String Hill :=
  if reg.tree ≠ none then
    (reg, .error "Cannot add hills after tree construction.")
  else
    let h : Hill := ⟨x, y, rank, height, hill_id, String.mk (pyStrip name.data)⟩
    ({ hills := reg.hills ++ [h],
       names := dictInsert (pyLower h.name) h reg.names,
       ids := dictInsert h.hill_id h reg.ids,
       tree := reg.tree }, .ok h)

/-! ## Cached raster access (`gb` in `nevis/_os50.py`) -/

/-- Model of a numpy 2-D float array: shape, contents, and the `WRITEABLE`
flag.  Slicing produces a view, and a view of a read-only array is read-only. -/
structure NpArr where
  ny : ℕ
  nx : ℕ
  dat : ℕ → ℕ → ℚ
  writeable : Bool

/-- `arr.setflags(write=w)`. -/
def npSetFlags (a : NpArr) (w : Bool) : NpArr :=
  { ny := a.ny, nx := a.nx, dat := a.dat, writeable := w }

/-- `arr[::k, ::k]` for `k ≥ 1`: a strided view (ceil-divided shape) that
inherits the parent's write protection. -/
def npSlice2 (a : NpArr) (k : ℕ) : NpArr :=
  { ny := (a.ny + k - 1) / k, nx := (a.nx + k - 1) / k,
    dat := fun i j => a.dat (i * k) (j * k), writeable := a.writeable }

/-- `arr[i, j] = v`: raises on a read-only array, else updates in place. -/
def npSetItem (a : NpArr) (i j : ℕ) (v : ℚ) : Except String NpArr :=
  if a.writeable = false then .error "assignment destination is read-only"
  else if i < a.ny ∧ j < a.nx then
    .ok { ny := a.ny, nx := a.nx,
          dat := fun y x => if y = i ∧ x = j then v else a.dat y x,
          writeable := a.writeable }
  else .error "index out of bounds"

/-- Shared tail of `gb`: return a downsampled view for `int(downsampling) > 1`
(keeping the full array cached), else the cached array itself. -/
def gbReturn (cache : Option NpArr) (hs : NpArr) (downsampling : Option ℚ) :
    Option NpArr × Except String NpArr :=
  match downsampling with
  | some q => if 1 < pyTrunc q then (cache, .ok (npSlice2 hs (pyTrunc q).toNat)) else (cache, .ok hs)
  | none => (cache, .ok hs)

/-- `gb(downsampling)`: load the cached `.npy` file on first use (failing with
`DataNotFoundError` when absent), clear the loaded array's write flag, and
serve (a possibly downsampled view of) the cached array.  State is the
module-level `_heights` cache; `fileExists`/`fileArr` model the cache file. -/
def gb (cache : Option NpArr) (fileExists : Bool) (fileArr : NpArr)
    (downsampling : Option ℚ) : Option NpArr × Except String NpArr :=
  match cache with
  | none =>
    if fileExists = false then
      (none, .error "OS Terrain 50 data not found.")
    else
      let loaded := npSetFlags fileArr false
      gbReturn (some loaded) loaded downsampling
  | some hs => gbReturn (some hs) hs downsampling

/-! ## Download control flow (`download_os50` in `nevis/_os50.py`) -/

/-- How a call to `download_os50` can end.  `exitedNonzero` models a
`SystemExit` with non-zero status; the function never produces it (declining
the prompt prints `'Halted.'` and falls through to a plain `return`). -/
inductive DownloadOutcome where
  | alreadyDone : DownloadOutcome
  | halted : DownloadOutcome
  | completed : DownloadOutcome
  | exitedNonzero : DownloadOutcome
deriving DecidableEq, Repr

/-- Control flow of `download_os50(force)`: `npyExists`/`zipExists` model the
two `os.path.isfile` checks and `answer` the interactive `input()` reply.
Processing details are abstracted into the `completed` outcome; they are
embedded separately (`setSeaLevel`, `addSeaSlope`). -/
def downloadOs50 (force npyExists zipExists : Bool) (answer : String) :
    DownloadOutcome :=
  if force = false ∧ npyExists then .alreadyDone
  else if force ∨ zipExists = false then
    if pyLower answer ∉ ["y", "yes"] then .halted
    else .completed
  else .completed

/-! ## Linear interpolation (`nevis/_interpolation.py`) -/

/-- `linear_interpolant.__call__` (value path): shift by half a cell, divide
by the resolution, clamp the four surrounding grid indices into range, and
bilinearly blend with the degenerate-dimension shortcut (`np.where`). -/
def linearInterpolant (H : ℕ → ℕ → ℚ) (ny nx : ℕ) (res : ℚ) (x y : ℚ) : ℚ :=
  let xg := x / res - 1/2
  let yg := y / res - 1/2
  let x1 : ℤ := min ((nx : ℤ) - 2) (max 0 (pyTrunc xg))
  let y1 : ℤ := min ((ny : ℤ) - 2) (max 0 (pyTrunc yg))
  let x2 : ℤ := x1 + 1
  let y2 : ℤ := y1 + 1
  let h11 := H (pyIdx ny y1) (pyIdx nx x1)
  let h12 := H (pyIdx ny y2) (pyIdx nx x1)
  let h21 := H (pyIdx ny y1) (pyIdx nx x2)
  let h22 := H (pyIdx ny y2) (pyIdx nx x2)
  let f1 := if h11 = h21 then h11 else ((x2 : ℚ) - xg) * h11 + (xg - (x1 : ℚ)) * h21
  let f2 := if h12 = h22 then h12 else ((x2 : ℚ) - xg) * h12 + (xg - (x1 : ℚ)) * h22
  if f1 = f2 then f1 else ((y2 : ℚ) - yg) * f1 + (yg - (y1 : ℚ)) * f2

/-! ## Sea-mask flood fill (`set_sea_level` in `nevis/_os50.py`) -/

/-- Python `range(a, b, d)` for a positive step `d`. -/
def pyRangeUp (a b d : ℤ) : List ℤ :=
  (List.range (Int.toNat (pyFloorDiv (b - a + d - 1) d))).map (fun (i : ℕ) => a + d * (i : ℤ))

/-- Python `range(a, b, -d)` for a positive `d`. -/
def pyRangeDown (a b d : ℤ) : List ℤ :=
  (List.range (Int.toNat (pyFloorDiv (a - b + d - 1) d))).map (fun (i : ℕ) => a - d * (i : ℤ))

/-- Loop body of `_spiral_squares`, with explicit fuel for the `while`.
The four `for` phases append the bottom row, right column, top row and left
column of the current ring, with the early `break`s of the source. -/
def spiralGo (d : ℤ) : ℕ → ℤ → ℤ → ℤ → ℤ → List (ℤ × ℤ)
  | 0, _, _, _, _ => []
  | fuel + 1, x0, y0, x1, y1 =>
    if x1 ≤ x0 then []
    else
      let s1 := (pyRangeUp x0 x1 d).map (fun x => (x, y0))
      let b0 := y0 + d
      if y1 ≤ b0 then s1
      else
        let s2 := (pyRangeUp b0 y1 d).map (fun y => (x1 - d, y))
        let r1 := x1 - d
        if r1 ≤ x0 then s1 ++ s2
        else
          let s3 := (pyRangeDown (r1 - d) (x0 - d) d).map (fun x => (x, y1 - d))
          let t1 := y1 - d
          if t1 ≤ b0 then s1 ++ s2 ++ s3
          else
            let s4 := (pyRangeDown (t1 - d) (b0 - d) d).map (fun y => (x0, y))
            s1 ++ s2 ++ s3 ++ s4 ++ spiralGo d fuel (x0 + d) b0 r1 t1

/-- `_spiral_squares(heights, d)`: lower-left corners of `d`-sized squares
covering the raster, spiralling inward from the bottom-left.  The fuel
`nx + 1` strictly dominates the loop count (`x1 - x0` shrinks by `2d` per
iteration). -/
def spiralSquares (ny nx : ℕ) (d : ℤ) : List (ℤ × ℤ) :=
  spiralGo d (nx + 1) 0 0 (nx : ℤ) (ny : ℤ)

/-- The cells of the clamped view of a square: the source translates edge
squares one pixel inward (`max(,1)`, `min(, n-1)`), so views never touch the
forced border. -/
def viewCells (ny nx : ℕ) (d : ℤ) (sq : ℤ × ℤ) : List (ℕ × ℕ) :=
  let x0 := max sq.1 1
  let y0 := max sq.2 1
  let x1 := min (sq.1 + d) ((nx : ℤ) - 1)
  let y1 := min (sq.2 + d) ((ny : ℤ) - 1)
  (pyRangeUp y0 y1 1).flatMap (fun y => (pyRangeUp x0 x1 1).map (fun x => (y.toNat, x.toNat)))

/-- The marking condition of the inner loop:
`(v <= 0) & (v != s) & ((v0 == s) | (v1 == s) | (v2 == s) | (v3 == s))`. -/
def eligCell (H : ℕ → ℕ → ℚ) (s : ℚ) (c : ℕ × ℕ) : Bool :=
  decide (H c.1 c.2 ≤ 0) && !decide (H c.1 c.2 = s) &&
    (decide (H (c.1 + 1) c.2 = s) || decide (H (c.1 - 1) c.2 = s) ||
     decide (H c.1 (c.2 - 1) = s) || decide (H c.1 (c.2 + 1) = s))

/-- `v[n] = s`: set every listed cell to `s`. -/
def maskWrite (H : ℕ → ℕ → ℚ) (cells : List (ℕ × ℕ)) (s : ℚ) : ℕ → ℕ → ℚ :=
  fun y x => if (y, x) ∈ cells then s else H y x

/-- `np.all(v < 0)` over the view (true on an empty view). -/
def allNegView (H : ℕ → ℕ → ℚ) (cells : List (ℕ × ℕ)) : Bool :=
  cells.all (fun c => decide (H c.1 c.2 < 0))

/-- `np.all(v > 0)` over the view. -/
def allPosView (H : ℕ → ℕ → ℚ) (cells : List (ℕ × ℕ)) : Bool :=
  cells.all (fun c => decide (0 < H c.1 c.2))

/-- `np.any(v == s) | np.any(v0 == s) | ... | np.any(v3 == s)`. -/
def anyAdjView (H : ℕ → ℕ → ℚ) (s : ℚ) (cells : List (ℕ × ℕ)) : Bool :=
  cells.any (fun c =>
    decide (H c.1 c.2 = s) || decide (H (c.1 + 1) c.2 = s) ||
    decide (H (c.1 - 1) c.2 = s) || decide (H c.1 (c.2 - 1) = s) ||
    decide (H c.1 (c.2 + 1) = s))

/-- The `for k in range(1000)` loop of a square: repeatedly mark eligible
cells until none change (or the fuel `kmax = 1000` is spent).  Returns the
updated heights and whether anything was marked. -/
def innerGo (s : ℚ) (cells : List (ℕ × ℕ)) :
    ℕ → (ℕ → ℕ → ℚ) → Bool → ((ℕ → ℕ → ℚ) × Bool)
  | 0, H, ch => (H, ch)
  | fuel + 1, H, ch =>
    let n := cells.filter (eligCell H s)
    if n.isEmpty then (H, ch)
    else innerGo s cells fuel (maskWrite H n s) true

/-- One pass of the `for i, sq in enumerate(squares)` loop: process each
square in order (threading the heights), skipping all-positive squares and
bulk-marking all-negative squares that already touch the mask.  Returns the
new heights, whether anything changed, and the squares kept active (the
source deletes the `skip` indices after the pass). -/
def passGo (ny nx : ℕ) (s : ℚ) :
    (ℕ → ℕ → ℚ) → List (ℤ × ℤ) → ((ℕ → ℕ → ℚ) × Bool × List (ℤ × ℤ))
  | H, [] => (H, false, [])
  | H, sq :: rest =>
    let cells := viewCells ny nx 80 sq
    if allNegView H cells then
      if anyAdjView H s cells then
        let r := passGo ny nx s (maskWrite H cells s) rest
        (r.1, true, r.2.2)
      else
        let r := passGo ny nx s H rest
        (r.1, r.2.1, sq :: r.2.2)
    else if allPosView H cells then
      passGo ny nx s H rest
    else
      let inn := innerGo s cells 1000 H false
      let r := passGo ny nx s inn.1 rest
      (r.1, inn.2 || r.2.1, sq :: r.2.2)

/-- The `for z in range(zmax)` loop: repeat passes until the active square
list empties or a pass changes nothing.  The boolean mirrors the source's
`z + 1 == zmax` warning (the hard iteration cap was reached). -/
def zGo (ny nx : ℕ) (s : ℚ) :
    ℕ → (ℕ → ℕ → ℚ) → List (ℤ × ℤ) → ((ℕ → ℕ → ℚ) × Bool)
  | 0, H, _ => (H, true)
  | fuel + 1, H, squares =>
    let r := passGo ny nx s H squares
    if r.2.2.isEmpty then (r.1, decide (fuel = 0))
    else if r.2.1 = false then (r.1, decide (fuel = 0))
    else zGo ny nx s fuel r.1 r.2.2

/-- The one-cell border forced to the sentinel (`heights[:e,:] = s` etc.). -/
def borderForce (H : ℕ → ℕ → ℚ) (ny nx : ℕ) (s : ℚ) : ℕ → ℕ → ℚ :=
  fun y x =>
    if y < ny ∧ x < nx ∧ (y = 0 ∨ y = ny - 1 ∨ x = 0 ∨ x = nx - 1) then s
    else H y x

/-- `set_sea_level(heights, s)`: force the border, then run the spiral-tiled
wavefront passes (`d = 80`, `zmax = 100`, `kmax = 1000`).  Returns the final
heights and whether the pass cap was reached. -/
def setSeaLevel (H : ℕ → ℕ → ℚ) (ny nx : ℕ) (s : ℚ) : (ℕ → ℕ → ℚ) × Bool :=
  zGo ny nx s 100 (borderForce H ny nx s) (spiralSquares ny nx 80)

/-! ### The flood-fill oracles -/

/-- All in-bounds cells, as a finite set. -/
def gridCells (ny nx : ℕ) : Finset (ℕ × ℕ) := Finset.range ny ×ˢ Finset.range nx

/-- One breadth step of the reference flood fill: add every in-bounds
non-positive cell 4-adjacent to the current mask. -/
def bfsStep (H0 : ℕ → ℕ → ℚ) (ny nx : ℕ) (M : Finset (ℕ × ℕ)) : Finset (ℕ × ℕ) :=
  M ∪ (gridCells ny nx).filter (fun c =>
    H0 c.1 c.2 ≤ 0 ∧
      ((c.1 + 1, c.2) ∈ M ∨ (0 < c.1 ∧ (c.1 - 1, c.2) ∈ M) ∨
       (0 < c.2 ∧ (c.1, c.2 - 1) ∈ M) ∨ (c.1, c.2 + 1) ∈ M))

/-- The cells of the one-cell border. -/
def borderSeed (ny nx : ℕ) : Finset (ℕ × ℕ) :=
  (gridCells ny nx).filter (fun c => c.1 = 0 ∨ c.1 = ny - 1 ∨ c.2 = 0 ∨ c.2 = nx - 1)

/-- The mask actually computed by the pipeline's strategy, as a plain
whole-grid flood fill: the border is forced (seeded regardless of sign) and
the fill spreads to non-positive cells. Saturates within `ny * nx` steps. -/
def bfsForcedMask (H0 : ℕ → ℕ → ℚ) (ny nx : ℕ) : Finset (ℕ × ℕ) :=
  (bfsStep H0 ny nx)^[ny * nx] (borderSeed ny nx)

/-- Modelled from the spec: the claimed reference oracle, a plain whole-grid
BFS flood fill whose seeds are the non-positive border cells and which
spreads through non-positive cells ("the set of non-positive cells
4-connected to the raster border through other non-positive cells"). -/
def bfsPlainMask (H0 : ℕ → ℕ → ℚ) (ny nx : ℕ) : Finset (ℕ × ℕ) :=
  (bfsStep H0 ny nx)^[ny * nx] ((borderSeed ny nx).filter (fun c => H0 c.1 c.2 ≤ 0))

/-- Reachability predicate underlying both oracles: a cell is `Sea` when it
is on the border, or is a non-positive in-bounds cell 4-adjacent to a `Sea`
cell (with respect to the input heights `H0`). -/
inductive Sea (H0 : ℕ → ℕ → ℚ) (ny nx : ℕ) : ℕ → ℕ → Prop where
  | border : ∀ y x, y < ny → x < nx → (y = 0 ∨ y = ny - 1 ∨ x = 0 ∨ x = nx - 1) →
      Sea H0 ny nx y x
  | up : ∀ y x, Sea H0 ny nx y x → y + 1 < ny → x < nx → H0 (y + 1) x ≤ 0 →
      Sea H0 ny nx (y + 1) x
  | down : ∀ y x, Sea H0 ny nx (y + 1) x → y < ny → x < nx → H0 y x ≤ 0 →
      Sea H0 ny nx y x
  | right : ∀ y x, Sea H0 ny nx y x → y < ny → x + 1 < nx → H0 y (x + 1) ≤ 0 →
      Sea H0 ny nx y (x + 1)
  | left : ∀ y x, Sea H0 ny nx y (x + 1) → y < ny → x < nx → H0 y x ≤ 0 →
      Sea H0 ny nx y x

/-! ## Sea-slope synthesis (`add_sea_slope` in `nevis/_os50.py`) -/

/-- Row-major enumeration of an `ny × nx` index range (`np.nonzero` order). -/
def rowMajor (ny nx : ℕ) : List (ℕ × ℕ) :=
  (List.range ny).flatMap (fun y => (List.range nx).map (fun x => (y, x)))

/-- Sequential scatter-assignment `heights[y, x] = vals` with numpy fancy
indexing: values are gathered first; on duplicate indices the last write
wins, which sequential application reproduces. -/
def writeSeq (H : ℕ → ℕ → ℚ) : List ((ℕ × ℕ) × ℚ) → (ℕ → ℕ → ℚ)
  | [] => H
  | (c, v) :: rest => writeSeq (fun y x => if y = c.1 ∧ x = c.2 then v else H y x) rest

/-- The initial frontier of `add_sea_slope`: sentinel cells bordering (in
each of the four directions) a non-sentinel cell, in `np.nonzero` order
`(yd, xd), (yu + 1, xu), (yl, xl), (yr, xr + 1)`. -/
def slopeInitFront (H : ℕ → ℕ → ℚ) (ny nx : ℕ) (s : ℚ) : List (ℕ × ℕ) :=
  let dn := (rowMajor (ny - 1) nx).filter
    (fun c => decide (H c.1 c.2 = s) && !decide (H (c.1 + 1) c.2 = s))
  let up := ((rowMajor (ny - 1) nx).filter
    (fun c => decide (H (c.1 + 1) c.2 = s) && !decide (H c.1 c.2 = s))).map
      (fun c => (c.1 + 1, c.2))
  let lf := (rowMajor ny (nx - 1)).filter
    (fun c => decide (H c.1 c.2 = s) && !decide (H c.1 (c.2 + 1) = s))
  let rt := ((rowMajor ny (nx - 1)).filter
    (fun c => decide (H c.1 (c.2 + 1) = s) && !decide (H c.1 c.2 = s))).map
      (fun c => (c.1, c.2 + 1))
  dn ++ up ++ lf ++ rt

/-- One directional move of the relaxation body: filter the frontier by the
boundary guard, shift to the target cells, keep those equal to `s` or lower
than source-minus-`h`, gather the new values and scatter them.  Returns the
updated heights and the written coordinates. -/
def slopeMove (H : ℕ → ℕ → ℚ) (h s : ℚ) (front : List (ℕ × ℕ))
    (guard : ℕ × ℕ → Bool) (tgt src : ℕ × ℕ → ℕ × ℕ) :
    (ℕ → ℕ → ℚ) × List (ℕ × ℕ) :=
  let sel := ((front.filter guard).map tgt).filter
    (fun t => decide (H t.1 t.2 = s) ||
      decide (H t.1 t.2 < H (src t).1 (src t).2 - h))
  (writeSeq H (sel.map (fun t => (t, H (src t).1 (src t).2 - h))), sel)

/-- The body of the propagation loop: the four moves (down, up, left, right)
share the incoming frontier but thread the heights; the new frontier is the
concatenation of the written coordinates. -/
def slopeBody (ny nx : ℕ) (s h : ℚ) (H : ℕ → ℕ → ℚ) (front : List (ℕ × ℕ)) :
    (ℕ → ℕ → ℚ) × List (ℕ × ℕ) :=
  let r1 := slopeMove H h s front (fun c => decide (0 < c.1))
    (fun c => (c.1 - 1, c.2)) (fun t => (t.1 + 1, t.2))
  let r2 := slopeMove r1.1 h s front (fun c => decide (c.1 < ny - 1))
    (fun c => (c.1 + 1, c.2)) (fun t => (t.1 - 1, t.2))
  let r3 := slopeMove r2.1 h s front (fun c => decide (0 < c.2))
    (fun c => (c.1, c.2 - 1)) (fun t => (t.1, t.2 + 1))
  let r4 := slopeMove r3.1 h s front (fun c => decide (c.2 < nx - 1))
    (fun c => (c.1, c.2 + 1)) (fun t => (t.1, t.2 - 1))
  (r4.1, r1.2 ++ r2.2 ++ r3.2 ++ r4.2)

/-- The `for i in range(ny * nx)` loop: run the body, stopping (after the
body, as in the source) once the frontier is empty.  Also counts the number
of executed iterations. -/
def slopeGo (ny nx : ℕ) (s h : ℚ) :
    ℕ → (ℕ → ℕ → ℚ) → List (ℕ × ℕ) → ((ℕ → ℕ → ℚ) × List (ℕ × ℕ) × ℕ)
  | 0, H, front => (H, front, 0)
  | fuel + 1, H, front =>
    let r := slopeBody ny nx s h H front
    if r.2.isEmpty then (r.1, r.2, 1)
    else
      let r2 := slopeGo ny nx s h fuel r.1 r.2
      (r2.1, r2.2.1, r2.2.2 + 1)

/-- `add_sea_slope(heights, s)`: seed the frontier at the mask boundary
(written to `s - h`, `h = 0.01`), relax outward for at most `ny * nx`
iterations, then shift all strictly-below-`s` cells up by `-s`.  Returns the
final heights and the number of outer iterations executed. -/
def addSeaSlope (H : ℕ → ℕ → ℚ) (ny nx : ℕ) (s : ℚ) : (ℕ → ℕ → ℚ) × ℕ :=
  let h : ℚ := 1/100
  let f0 := slopeInitFront H ny nx s
  let H1 := writeSeq H (f0.map (fun c => (c, s - h)))
  let r := slopeGo ny nx s h (ny * nx) H1 f0
  (fun y x => if y < ny ∧ x < nx ∧ r.1 y x < s then r.1 y x - s else r.1 y x, r.2.2)

/-- The number of outer propagation-loop iterations `add_sea_slope` executes. -/
def addSeaSlopeSteps (H : ℕ → ℕ → ℚ) (ny nx : ℕ) (s : ℚ) : ℕ :=
  (addSeaSlope H ny nx s).2

/-! ## Flood-fill invariants and the C1 witness raster -/

/-- The running soundness invariant of the flood fill: in-bounds cells equal
to the sentinel are genuinely `Sea`, and all other in-bounds cells still hold
their input value. -/
def SeaInv (H0 : ℕ → ℕ → ℚ) (ny nx : ℕ) (s : ℚ) (H : ℕ → ℕ → ℚ) : Prop :=
  ∀ y x, y < ny → x < nx →
    (H y x = s → Sea H0 ny nx y x) ∧ (H y x ≠ s → H y x = H0 y x)

/-- A permanently settled square: its view is all strictly positive (never
eligible) or fully masked (never eligible again). -/
def ClosedView (ny nx : ℕ) (s : ℚ) (H : ℕ → ℕ → ℚ) (sq : ℤ × ℤ) : Prop :=
  (∀ c ∈ viewCells ny nx 80 sq, 0 < H c.1 c.2) ∨
  (∀ c ∈ viewCells ny nx 80 sq, H c.1 c.2 = s)

/-- A 4 by 4 test raster: positive border (2), one negative interior cell
(-1) at (1, 1), positive elsewhere. -/
def seaWitnessRaster : ℕ → ℕ → ℚ :=
  fun y x =>
    if y = 1 ∧ x = 1 then -1
    else if y = 0 ∨ y = 3 ∨ x = 0 ∨ x = 3 then 2
    else 5


/-! ## Helper lemmas -/

theorem pyTrunc_bounds (q : ℚ) : q - 1 < (pyTrunc q : ℚ) ∧ (pyTrunc q : ℚ) < q + 1 := by
  have hd : (0 : ℤ) < (q.den : ℤ) := Int.natCast_pos.mpr q.pos
  have hdq : (0 : ℚ) < ((q.den : ℕ) : ℚ) := by exact_mod_cast hd
  have h1 : q.num < (pyTrunc q + 1) * q.den :=
    Int.lt_tdiv_add_one_mul_self q.num hd
  have h2 : -q.num < (-(pyTrunc q) + 1) * q.den := by
    have h3 := Int.lt_tdiv_add_one_mul_self (-q.num) hd
    rwa [Int.neg_tdiv] at h3
  have hq : (q.num : ℚ) = q * ((q.den : ℕ) : ℚ) := by
    have h := Rat.num_div_den q
    rw [div_eq_iff (ne_of_gt hdq)] at h
    exact h
  have h1q : q * ((q.den : ℕ) : ℚ) < ((pyTrunc q : ℚ) + 1) * ((q.den : ℕ) : ℚ) := by
    rw [← hq]; exact_mod_cast h1
  have h2q : -(q * ((q.den : ℕ) : ℚ)) < (-(pyTrunc q : ℚ) + 1) * ((q.den : ℕ) : ℚ) := by
    rw [← hq]; exact_mod_cast h2
  have g1 : q < (pyTrunc q : ℚ) + 1 := (mul_lt_mul_right hdq).mp h1q
  rw [← neg_mul] at h2q
  have g2 : -q < -(pyTrunc q : ℚ) + 1 := (mul_lt_mul_right hdq).mp h2q
  exact ⟨by linarith, by linarith⟩

theorem pyTrunc_intCast (n : ℤ) : pyTrunc ((n : ℤ) : ℚ) = n := by
  simp [pyTrunc]

theorem pyTrunc_natCast (n : ℕ) : pyTrunc ((n : ℕ) : ℚ) = n := by
  simp [pyTrunc]

theorem ite_sel {α : Type} (a b : α) [Decidable (a = b)] :
    (if a = b then a else b) = b := by
  split
  · assumption
  · rfl

theorem pyIdx_eq (n : ℕ) (i : ℤ) (h : 0 ≤ i) : pyIdx n i = i.toNat := by
  simp [pyIdx, not_lt.mpr h]

theorem slopeGo_steps_le (ny nx : ℕ) (s h : ℚ) :
    ∀ fuel (H : ℕ → ℕ → ℚ) (front : List (ℕ × ℕ)),
      (slopeGo ny nx s h fuel H front).2.2 ≤ fuel := by
  intro fuel
  induction fuel with
  | zero => intro H front; simp [slopeGo]
  | succ n ih =>
    intro H front
    simp only [slopeGo]
    split
    · simp
    · simpa using ih _ _

/-! ## Claim theorems -/

/-- **C2**: parsing the grid reference "NN166712" returns the lower-left
coordinate (216600, 771200) together with square size 100 m — "NN" selects
the 100 km cell at (200000, 700000); "166"/"712" are scaled by
`10^(5-3) = 100`. -/
theorem c2_parse_nn166712 :
    (fromSquareWithSize "NN166712").toOption.map
      (fun p => (p.1.gridx, p.1.gridy, p.2)) = some (216600, 771200, (100 : ℚ)) := by
  decide

/-- **C3, counterexample**: the claim says `"ZZ"` and `"NN1671"` both raise a
parse error; in fact both parse successfully ('Z' is a valid letter of the
bottom table row, and "1671" has an even digit count). -/
theorem c3_counterexample :
    (fromSquareWithSize "ZZ").toOption.isSome = true ∧
    (fromSquareWithSize "NN1671").toOption.isSome = true := by
  decide

/-- **C3, amended**: `"ZZ"` parses to the (off-grid, unvalidated) corner
(1400000, -500000) with size 100000, and `"NN1671"` parses to
(216000, 771000) with size 1000 (digit halves "16"/"71" at 1 km precision);
neither raises. -/
theorem c3_amended :
    (fromSquareWithSize "ZZ").toOption.map
      (fun p => (p.1.gridx, p.1.gridy, p.2)) = some (1400000, -500000, (100000 : ℚ)) ∧
    (fromSquareWithSize "NN1671").toOption.map
      (fun p => (p.1.gridx, p.1.gridy, p.2)) = some (216000, 771000, (1000 : ℚ)) := by
  decide

/-- **C4, counterexample**: the Coords built from the normalised pair
(2⁻²⁰, 2⁻²⁰) stores the metric pair (0, 1) (`int()` truncation), while
normalised × extent is (700000/2²⁰, 1300000/2²⁰); the exact invariant
`metric = normalized × (width, height)` fails. -/
theorem c4_counterexample :
    ¬(((coordsFromNorm (1/1048576) (1/1048576)).gridx : ℚ) =
        (coordsFromNorm (1/1048576) (1/1048576)).normx * ((gridWidth : ℤ) : ℚ) ∧
      ((coordsFromNorm (1/1048576) (1/1048576)).gridy : ℚ) =
        (coordsFromNorm (1/1048576) (1/1048576)).normy * ((gridHeight : ℤ) : ℚ)) := by
  decide

/-- **C4, amended**: for a Coords built from a metric pair the invariant holds
exactly (`metric = normalized × (width, height)` over exact rationals); for a
Coords built from a normalised pair the metric pair is the truncation toward
zero of normalised × extent, so each component differs from
normalised × extent by strictly less than 1. -/
theorem c4_amended (gx gy nr ns : ℚ) :
    (((coordsFromGrid gx gy).gridx : ℚ) =
        (coordsFromGrid gx gy).normx * ((gridWidth : ℤ) : ℚ) ∧
     ((coordsFromGrid gx gy).gridy : ℚ) =
        (coordsFromGrid gx gy).normy * ((gridHeight : ℤ) : ℚ)) ∧
    ((coordsFromNorm nr ns).gridx = pyTrunc (nr * ((gridWidth : ℤ) : ℚ)) ∧
     (coordsFromNorm nr ns).gridy = pyTrunc (ns * ((gridHeight : ℤ) : ℚ)) ∧
     |((coordsFromNorm nr ns).gridx : ℚ) -
        (coordsFromNorm nr ns).normx * ((gridWidth : ℤ) : ℚ)| < 1 ∧
     |((coordsFromNorm nr ns).gridy : ℚ) -
        (coordsFromNorm nr ns).normy * ((gridHeight : ℤ) : ℚ)| < 1) := by
  have hw : ((gridWidth : ℤ) : ℚ) ≠ 0 := by norm_num [gridWidth]
  have hh : ((gridHeight : ℤ) : ℚ) ≠ 0 := by norm_num [gridHeight]
  refine ⟨⟨?_, ?_⟩, rfl, rfl, ?_, ?_⟩
  · simp only [coordsFromGrid]
    rw [div_mul_cancel₀ _ hw]
  · simp only [coordsFromGrid]
    rw [div_mul_cancel₀ _ hh]
  · simp only [coordsFromNorm]
    have hb := pyTrunc_bounds (nr * ((gridWidth : ℤ) : ℚ))
    rw [abs_sub_lt_iff]
    constructor <;> linarith [hb.1, hb.2]
  · simp only [coordsFromNorm]
    have hb := pyTrunc_bounds (ns * ((gridHeight : ℤ) : ℚ))
    rw [abs_sub_lt_iff]
    constructor <;> linarith [hb.1, hb.2]

/-- **C6, counterexample**: with no cached files and the user answering "n",
`download_os50` prints 'Halted.' and returns normally — it does not exit the
process with a non-zero status as the claim says. -/
theorem c6_counterexample :
    downloadOs50 false false false "n" = DownloadOutcome.halted ∧
    DownloadOutcome.halted ≠ DownloadOutcome.exitedNonzero := by
  decide

/-- **C6, amended**: whenever the download prompt is reached (no processed
file or forcing, and no zip or forcing) and the lower-cased answer is neither
"y" nor "yes", `download_os50` returns normally with the `halted` outcome —
skipping download and processing; no exception or exit occurs. -/
theorem c6_amended (force npyExists zipExists : Bool) (answer : String)
    (h1 : ¬(force = false ∧ npyExists = true))
    (h2 : force = true ∨ zipExists = false)
    (h3 : pyLower answer ∉ ["y", "yes"]) :
    downloadOs50 force npyExists zipExists answer = DownloadOutcome.halted := by
  unfold downloadOs50
  rcases h2 with h2 | h2
  · subst h2
    simp [h3]
  · subst h2
    rcases force with _ | _
    · simp at h1
      simp [h1, h3]
    · simp [h3]

theorem c6_amended_witness :
    ¬(false = false ∧ false = true) ∧
    downloadOs50 false false false "no" = DownloadOutcome.halted :=
  ⟨by decide, c6_amended false false false "no" (by decide) (by decide) (by decide)⟩

/-- **C7**: coordinates below or left of the 500 km letter table's domain get
the 'Off the grid' sentinel, but coordinates beyond the table's top or right
edge make `GL[a][b]` raise an uncaught `IndexError` (only `KeyError` is
caught); an in-domain point still formats normally.  The claim (sentinel in
every direction) describes the clear intent; the code slips on the upper
sides. -/
theorem c7_offgrid_behavior :
    findSquare 1500000 0 3 = FindResult.indexErr ∧
    findSquare 0 2000000 3 = FindResult.indexErr ∧
    findSquare (-1000001) 0 3 = FindResult.offGrid ∧
    findSquare 0 (-500001) 3 = FindResult.offGrid ∧
    findSquare 216600 771200 3 = FindResult.ref "NN166712" := by
  decide

/-- **C9**: constructing a `Hill` after the k-d tree has been built always
fails with the `ValueError`, and the failed construction leaves the registry
(hills list, name map, id map, tree) exactly unchanged. -/
theorem c9_hill_after_tree (reg : HillReg) (x y rank : ℤ) (height : ℚ)
    (hill_id : ℤ) (name : String) (t : List (ℤ × ℤ)) (ht : reg.tree = some t) :
    hillInit reg x y rank height hill_id name =
      (reg, .error "Cannot add hills after tree construction.") := by
  unfold hillInit
  rw [ht]
  simp

theorem c9_hill_after_tree_witness :
    hillInit ⟨[], [], [], some []⟩ 216666 771288 1 1345 278 "Ben Nevis" =
      (⟨[], [], [], some []⟩, .error "Cannot add hills after tree construction.") :=
  c9_hill_after_tree ⟨[], [], [], some []⟩ 216666 771288 1 1345 278 "Ben Nevis" [] rfl

/-- **C10**: an array served by `gb` after a fresh load from the cache file
has its writeable flag cleared (for any downsampling argument), so numpy
assignment into it raises; serving a downsampled view keeps the cached
full-resolution array unchanged in the cache, and the strided view inherits
the parent's write protection. -/
theorem c10_gb_write_protection (fileArr : NpArr) (ds : Option ℚ) (hs : NpArr)
    (q : ℚ) (hq : 1 < pyTrunc q) :
    (∀ st res, gb none true fileArr ds = (st, .ok res) →
       res.writeable = false ∧
       ∀ i j v, npSetItem res i j v = .error "assignment destination is read-only") ∧
    gb (some hs) true fileArr (some q) =
      (some hs, .ok (npSlice2 hs (pyTrunc q).toNat)) ∧
    (npSlice2 hs (pyTrunc q).toNat).writeable = hs.writeable := by
  refine ⟨?_, ?_, rfl⟩
  · intro st res hres
    have hw : res.writeable = false := by
      simp only [gb, gbReturn, if_neg (by simp : ¬(true = false))] at hres
      split at hres
      · split at hres
        · injection hres with h1 h2
          injection h2 with h3
          rw [← h3]
          rfl
        · injection hres with h1 h2
          injection h2 with h3
          rw [← h3]
          rfl
      · injection hres with h1 h2
        injection h2 with h3
        rw [← h3]
        rfl
    refine ⟨hw, ?_⟩
    intro i j v
    unfold npSetItem
    rw [if_pos hw]
  · simp only [gb, gbReturn]
    rw [if_pos hq]

theorem c10_gb_write_protection_witness :
    (1 : ℤ) < pyTrunc 2 ∧
    gb (some ⟨4, 4, fun _ _ => 0, false⟩) true ⟨4, 4, fun _ _ => 0, true⟩ (some 2) =
      (some ⟨4, 4, fun _ _ => 0, false⟩,
       .ok (npSlice2 ⟨4, 4, fun _ _ => 0, false⟩ (pyTrunc 2).toNat)) :=
  ⟨by decide,
   (c10_gb_write_protection ⟨4, 4, fun _ _ => 0, true⟩ (some 2)
     ⟨4, 4, fun _ _ => 0, false⟩ 2 (by decide)).2.1⟩

/-- **C5**: evaluating the linear interpolant exactly at a cell's centre
coordinates `((col + 0.5) * 50, (row + 0.5) * 50)` returns exactly the stored
value `heights[row, col]`: the blend weights degenerate to 0/1 (and the
`np.where` shortcut makes the clamped edge cases exact as well). -/
theorem c5_interp_exact (H : ℕ → ℕ → ℚ) (ny nx row col : ℕ)
    (hny : 2 ≤ ny) (hnx : 2 ≤ nx) (hrow : row < ny) (hcol : col < nx) :
    linearInterpolant H ny nx 50 (((col : ℚ) + 1/2) * 50) (((row : ℚ) + 1/2) * 50) =
      H row col := by
  have hxg : (((col : ℚ) + 1/2) * 50) / 50 - 1/2 = (col : ℚ) := by
    field_simp
    ring
  have hyg : (((row : ℚ) + 1/2) * 50) / 50 - 1/2 = (row : ℚ) := by
    field_simp
    ring
  simp only [linearInterpolant, hxg, hyg, pyTrunc_natCast]
  rw [max_eq_right (Int.natCast_nonneg col), max_eq_right (Int.natCast_nonneg row)]
  rcases le_or_lt ((col : ℤ)) ((nx : ℤ) - 2) with hc | hc
  · rw [min_eq_right hc]
    rcases le_or_lt ((row : ℤ)) ((ny : ℤ) - 2) with hr | hr
    · rw [min_eq_right hr]
      rw [pyIdx_eq ny _ (by positivity), pyIdx_eq nx _ (by positivity),
          pyIdx_eq ny _ (by omega), pyIdx_eq nx _ (by omega)]
      have e1 : ((col : ℤ)).toNat = col := by omega
      have e2 : ((row : ℤ)).toNat = row := by omega
      have e3 : ((col : ℤ) + 1).toNat = col + 1 := by omega
      have e4 : ((row : ℤ) + 1).toNat = row + 1 := by omega
      rw [e1, e2, e3, e4]
      push_cast
      ring_nf
      simp [ite_self, ite_sel]
    · have hre : row = ny - 1 := by omega
      subst hre
      rw [min_eq_left (show ((ny : ℤ) - 2) ≤ ((ny - 1 : ℕ) : ℤ) by omega)]
      rw [pyIdx_eq ny _ (by omega), pyIdx_eq nx _ (by positivity),
          pyIdx_eq ny _ (by omega), pyIdx_eq nx _ (by omega)]
      have e1 : ((col : ℤ)).toNat = col := by omega
      have e3 : ((col : ℤ) + 1).toNat = col + 1 := by omega
      have e5 : ((ny : ℤ) - 2).toNat = ny - 2 := by omega
      have e6 : ((ny : ℤ) - 2 + 1).toNat = ny - 1 := by omega
      rw [e1, e3, e5, e6]
      have w1 : (((ny : ℤ) - 2 + 1 : ℤ) : ℚ) - ((ny - 1 : ℕ) : ℚ) = 0 := by
        push_cast [Nat.cast_sub (by omega : 1 ≤ ny)]
        ring
      have w2 : ((ny - 1 : ℕ) : ℚ) - (((ny : ℤ) - 2 : ℤ) : ℚ) = 1 := by
        push_cast [Nat.cast_sub (by omega : 1 ≤ ny)]
        ring
      rw [w1, w2]
      push_cast
      ring_nf
      simp [ite_self, ite_sel]
  · have hce : col = nx - 1 := by omega
    subst hce
    rw [min_eq_left (show ((nx : ℤ) - 2) ≤ ((nx - 1 : ℕ) : ℤ) by omega)]
    rcases le_or_lt ((row : ℤ)) ((ny : ℤ) - 2) with hr | hr
    · rw [min_eq_right hr]
      rw [pyIdx_eq ny _ (by positivity), pyIdx_eq nx _ (by omega),
          pyIdx_eq ny _ (by omega), pyIdx_eq nx _ (by omega)]
      have e2 : ((row : ℤ)).toNat = row := by omega
      have e4 : ((row : ℤ) + 1).toNat = row + 1 := by omega
      have e5 : ((nx : ℤ) - 2).toNat = nx - 2 := by omega
      have e6 : ((nx : ℤ) - 2 + 1).toNat = nx - 1 := by omega
      rw [e2, e4, e5, e6]
      have w1 : (((nx : ℤ) - 2 + 1 : ℤ) : ℚ) - ((nx - 1 : ℕ) : ℚ) = 0 := by
        push_cast [Nat.cast_sub (by omega : 1 ≤ nx)]
        ring
      have w2 : ((nx - 1 : ℕ) : ℚ) - (((nx : ℤ) - 2 : ℤ) : ℚ) = 1 := by
        push_cast [Nat.cast_sub (by omega : 1 ≤ nx)]
        ring
      rw [w1, w2]
      push_cast
      ring_nf
      simp [ite_self, ite_sel]
    · have hre : row = ny - 1 := by omega
      subst hre
      rw [min_eq_left (show ((ny : ℤ) - 2) ≤ ((ny - 1 : ℕ) : ℤ) by omega)]
      rw [pyIdx_eq ny _ (by omega), pyIdx_eq nx _ (by omega),
          pyIdx_eq ny _ (by omega), pyIdx_eq nx _ (by omega)]
      have e5 : ((nx : ℤ) - 2).toNat = nx - 2 := by omega
      have e6 : ((nx : ℤ) - 2 + 1).toNat = nx - 1 := by omega
      have e7 : ((ny : ℤ) - 2).toNat = ny - 2 := by omega
      have e8 : ((ny : ℤ) - 2 + 1).toNat = ny - 1 := by omega
      rw [e5, e6, e7, e8]
      have w1 : (((nx : ℤ) - 2 + 1 : ℤ) : ℚ) - ((nx - 1 : ℕ) : ℚ) = 0 := by
        push_cast [Nat.cast_sub (by omega : 1 ≤ nx)]
        ring
      have w2 : ((nx - 1 : ℕ) : ℚ) - (((nx : ℤ) - 2 : ℤ) : ℚ) = 1 := by
        push_cast [Nat.cast_sub (by omega : 1 ≤ nx)]
        ring
      have w3 : (((ny : ℤ) - 2 + 1 : ℤ) : ℚ) - ((ny - 1 : ℕ) : ℚ) = 0 := by
        push_cast [Nat.cast_sub (by omega : 1 ≤ ny)]
        ring
      have w4 : ((ny - 1 : ℕ) : ℚ) - (((ny : ℤ) - 2 : ℤ) : ℚ) = 1 := by
        push_cast [Nat.cast_sub (by omega : 1 ≤ ny)]
        ring
      rw [w1, w2, w3, w4]
      ring_nf
      simp [ite_sel]

theorem c5_interp_exact_witness :
    2 ≤ 3 ∧ (1 : ℕ) < 3 ∧
    linearInterpolant (fun y x => (y * 10 + x : ℚ)) 3 3 50
      ((((1 : ℕ) : ℚ) + 1/2) * 50) ((((1 : ℕ) : ℚ) + 1/2) * 50) =
      ((1 : ℕ) : ℚ) * 10 + ((1 : ℕ) : ℚ) :=
  ⟨by norm_num, by norm_num,
   c5_interp_exact (fun y x => (y * 10 + x : ℚ)) 3 3 1 1 (by norm_num) (by norm_num)
     (by norm_num) (by norm_num)⟩

/-- **C8**: `add_sea_slope` always terminates: the outer propagation loop
executes at most `ny * nx` iterations (its `range` bound), and it stops as
soon as the frontier produced by a body execution is empty (one final
iteration, then the `break`). -/
theorem c8_slope_terminates (H : ℕ → ℕ → ℚ) (ny nx : ℕ) (s : ℚ) :
    addSeaSlopeSteps H ny nx s ≤ ny * nx ∧
    ∀ fuel (H2 : ℕ → ℕ → ℚ) (front : List (ℕ × ℕ)),
      (slopeBody ny nx s (1/100) H2 front).2 = [] →
      slopeGo ny nx s (1/100) (fuel + 1) H2 front =
        ((slopeBody ny nx s (1/100) H2 front).1, [], 1) := by
  constructor
  · exact slopeGo_steps_le ny nx s (1/100) (ny * nx) _ _
  · intro fuel H2 front hempty
    simp only [slopeGo]
    rw [hempty]
    simp

theorem c8_slope_terminates_witness :
    addSeaSlopeSteps (fun _ _ => (-100 : ℚ)) 2 2 (-100) ≤ 2 * 2 ∧
    slopeGo 2 2 (-100) (1/100) 1 (fun _ _ => (0 : ℚ)) [] =
      ((slopeBody 2 2 (-100) (1/100) (fun _ _ => (0 : ℚ)) []).1, [], 1) :=
  ⟨(c8_slope_terminates (fun _ _ => (-100 : ℚ)) 2 2 (-100)).1,
   (c8_slope_terminates (fun _ _ => (-100 : ℚ)) 2 2 (-100)).2 0
     (fun _ _ => (0 : ℚ)) [] (by decide)⟩




theorem mem_pyRangeUp_one (lo hi a : ℤ) : a ∈ pyRangeUp lo hi 1 ↔ lo ≤ a ∧ a < hi := by
  unfold pyRangeUp pyFloorDiv
  rw [Int.fdiv_eq_ediv _ (by omega)]
  constructor
  · intro hmem
    rcases List.mem_map.mp hmem with ⟨i, hir, rfl⟩
    have hlt := List.mem_range.mp hir
    omega
  · intro h
    refine List.mem_map.mpr ⟨(a - lo).toNat, List.mem_range.mpr (by omega), by omega⟩

theorem pyRangeUp_cover {d : ℤ} (hd : 0 < d) (lo hi t : ℤ) (h1 : lo ≤ t) (h2 : t < hi) :
    ∃ a ∈ pyRangeUp lo hi d, a ≤ t ∧ t < a + d := by
  unfold pyRangeUp pyFloorDiv
  rw [Int.fdiv_eq_ediv _ (by omega)]
  have hq := Int.ediv_add_emod (t - lo) d
  have hr0 : 0 ≤ (t - lo) % d := Int.emod_nonneg _ (by omega)
  have hrd : (t - lo) % d < d := Int.emod_lt_of_pos _ hd
  have hq0 : 0 ≤ (t - lo) / d := Int.ediv_nonneg (by omega) (by omega)
  have hcount : (t - lo) / d < (hi - lo + d - 1) / d := by
    have h3 : (hi - lo + d - 1) = (hi - 1 - lo) + 1 * d := by ring
    rw [h3, Int.add_mul_ediv_right _ _ (by omega : d ≠ 0)]
    have h4 : (t - lo) / d ≤ (hi - 1 - lo) / d := Int.ediv_le_ediv hd (by omega)
    omega
  refine ⟨lo + d * ((t - lo) / d), ?_, by omega, by omega⟩
  refine List.mem_map.mpr ⟨((t - lo) / d).toNat, List.mem_range.mpr (by omega), ?_⟩
  rw [Int.toNat_of_nonneg hq0]

theorem pyRangeDown_cover {d : ℤ} (hd : 0 < d) (lo hi t : ℤ) (h1 : lo ≤ t) (h2 : t < hi) :
    ∃ a ∈ pyRangeDown (hi - d) (lo - d) d, a ≤ t ∧ t < a + d := by
  unfold pyRangeDown pyFloorDiv
  rw [Int.fdiv_eq_ediv _ (by omega)]
  have hq := Int.ediv_add_emod (hi - 1 - t) d
  have hr0 : 0 ≤ (hi - 1 - t) % d := Int.emod_nonneg _ (by omega)
  have hrd : (hi - 1 - t) % d < d := Int.emod_lt_of_pos _ hd
  have hq0 : 0 ≤ (hi - 1 - t) / d := Int.ediv_nonneg (by omega) (by omega)
  have hcount : (hi - 1 - t) / d < ((hi - d) - (lo - d) + d - 1) / d := by
    have h3 : ((hi - d) - (lo - d) + d - 1) = (hi - 1 - lo) + 1 * d := by ring
    rw [h3, Int.add_mul_ediv_right _ _ (by omega : d ≠ 0)]
    have h4 : (hi - 1 - t) / d ≤ (hi - 1 - lo) / d := Int.ediv_le_ediv hd (by omega)
    omega
  refine ⟨(hi - d) - d * ((hi - 1 - t) / d), ?_, by omega, by omega⟩
  refine List.mem_map.mpr ⟨((hi - 1 - t) / d).toNat, List.mem_range.mpr (by omega), ?_⟩
  rw [Int.toNat_of_nonneg hq0]


theorem spiralGo_cover {d : ℤ} (hd : 0 < d) :
    ∀ (fuel : ℕ) (x0 y0 x1 y1 t u : ℤ),
      (x1 - x0).toNat < fuel → x0 ≤ t → t < x1 → y0 ≤ u → u < y1 →
      ∃ sq ∈ spiralGo d fuel x0 y0 x1 y1,
        sq.1 ≤ t ∧ t < sq.1 + d ∧ sq.2 ≤ u ∧ u < sq.2 + d := by
  intro fuel
  induction fuel with
  | zero =>
    intro x0 y0 x1 y1 t u hf ht1 ht2 hu1 hu2
    exact absurd hf (Nat.not_lt_zero _)
  | succ n ih =>
    intro x0 y0 x1 y1 t u hf ht1 ht2 hu1 hu2
    simp only [spiralGo]
    rw [if_neg (by omega : ¬ x1 ≤ x0)]
    by_cases hb : u < y0 + d
    · obtain ⟨av, hav, ha1, ha2⟩ := pyRangeUp_cover hd x0 x1 t ht1 ht2
      have hmem : (av, y0) ∈ (pyRangeUp x0 x1 d).map (fun x => (x, y0)) :=
        List.mem_map.mpr ⟨av, hav, rfl⟩
      split
      · exact ⟨(av, y0), hmem, ha1, ha2, hu1, hb⟩
      · split
        · exact ⟨(av, y0), by simp [List.mem_append, hmem], ha1, ha2, hu1, hb⟩
        · split
          · exact ⟨(av, y0), by simp [List.mem_append, hmem], ha1, ha2, hu1, hb⟩
          · exact ⟨(av, y0), by simp [List.mem_append, hmem], ha1, ha2, hu1, hb⟩
    · push_neg at hb
      rw [if_neg (by omega : ¬ y1 ≤ y0 + d)]
      by_cases hr : x1 - d ≤ t
      · obtain ⟨bv, hbv, hb1, hb2⟩ := pyRangeUp_cover hd (y0 + d) y1 u hb hu2
        have hmem : (x1 - d, bv) ∈ (pyRangeUp (y0 + d) y1 d).map (fun y => (x1 - d, y)) :=
          List.mem_map.mpr ⟨bv, hbv, rfl⟩
        split
        · exact ⟨(x1 - d, bv), by simp [List.mem_append, hmem], hr, by omega, hb1, hb2⟩
        · split
          · exact ⟨(x1 - d, bv), by simp [List.mem_append, hmem], hr, by omega, hb1, hb2⟩
          · exact ⟨(x1 - d, bv), by simp [List.mem_append, hmem], hr, by omega, hb1, hb2⟩
      · push_neg at hr
        rw [if_neg (by omega : ¬ x1 - d ≤ x0)]
        by_cases htop : y1 - d ≤ u
        · obtain ⟨av, hav, ha1, ha2⟩ := pyRangeDown_cover hd x0 (x1 - d) t ht1 hr
          have hmem : (av, y1 - d) ∈
              (pyRangeDown (x1 - d - d) (x0 - d) d).map (fun x => (x, y1 - d)) :=
            List.mem_map.mpr ⟨av, hav, rfl⟩
          split
          · exact ⟨(av, y1 - d), by simp [List.mem_append, hmem], ha1, ha2, htop, by omega⟩
          · exact ⟨(av, y1 - d), by simp [List.mem_append, hmem], ha1, ha2, htop, by omega⟩
        · push_neg at htop
          rw [if_neg (by omega : ¬ y1 - d ≤ y0 + d)]
          by_cases hlft : t < x0 + d
          · obtain ⟨bv, hbv, hb1, hb2⟩ := pyRangeDown_cover hd (y0 + d) (y1 - d) u hb htop
            rw [show y0 + d - d = y0 by ring] at hbv
            refine ⟨(x0, bv), ?_, ht1, hlft, hb1, hb2⟩
            simp [List.mem_append, hbv]
          · push_neg at hlft
            obtain ⟨sq, hsq, h1, h2, h3, h4⟩ :=
              ih (x0 + d) (y0 + d) (x1 - d) (y1 - d) t u (by omega) hlft hr hb htop
            exact ⟨sq, by simp [List.mem_append, hsq], h1, h2, h3, h4⟩

theorem spiralSquares_cover (ny nx : ℕ) (t u : ℤ) (ht1 : 0 ≤ t) (ht2 : t < (nx : ℤ))
    (hu1 : 0 ≤ u) (hu2 : u < (ny : ℤ)) :
    ∃ sq ∈ spiralSquares ny nx 80,
      sq.1 ≤ t ∧ t < sq.1 + 80 ∧ sq.2 ≤ u ∧ u < sq.2 + 80 := by
  exact spiralGo_cover (by omega) (nx + 1) 0 0 (nx : ℤ) (ny : ℤ) t u (by omega) ht1 ht2 hu1 hu2


theorem mem_viewCells (ny nx : ℕ) (d : ℤ) (sq : ℤ × ℤ) (c : ℕ × ℕ) :
    c ∈ viewCells ny nx d sq ↔
      (max sq.2 1 ≤ (c.1 : ℤ) ∧ (c.1 : ℤ) < min (sq.2 + d) ((ny : ℤ) - 1) ∧
       max sq.1 1 ≤ (c.2 : ℤ) ∧ (c.2 : ℤ) < min (sq.1 + d) ((nx : ℤ) - 1)) := by
  unfold viewCells
  simp only [List.mem_flatMap, List.mem_map]
  constructor
  · rintro ⟨y, hy, x, hx, rfl⟩
    rw [mem_pyRangeUp_one] at hy hx
    have hy0 : (0 : ℤ) ≤ y := le_trans (by omega : (0 : ℤ) ≤ max sq.2 1) hy.1
    have hx0 : (0 : ℤ) ≤ x := le_trans (by omega : (0 : ℤ) ≤ max sq.1 1) hx.1
    simp only [Int.toNat_of_nonneg hy0, Int.toNat_of_nonneg hx0]
    exact ⟨hy.1, hy.2, hx.1, hx.2⟩
  · rintro ⟨h1, h2, h3, h4⟩
    refine ⟨(c.1 : ℤ), ?_, (c.2 : ℤ), ?_, ?_⟩
    · rw [mem_pyRangeUp_one]
      exact ⟨h1, h2⟩
    · rw [mem_pyRangeUp_one]
      exact ⟨h3, h4⟩
    · simp

theorem viewCells_bounds {ny nx : ℕ} {sq : ℤ × ℤ} {c : ℕ × ℕ}
    (h : c ∈ viewCells ny nx 80 sq) :
    1 ≤ c.1 ∧ c.1 + 1 < ny ∧ 1 ≤ c.2 ∧ c.2 + 1 < nx := by
  rw [mem_viewCells] at h
  obtain ⟨h1, h2, h3, h4⟩ := h
  have g1 : (1 : ℤ) ≤ (c.1 : ℤ) := le_trans (le_max_right _ _) h1
  have g2 : (c.1 : ℤ) < (ny : ℤ) - 1 := lt_of_lt_of_le h2 (min_le_right _ _)
  have g3 : (1 : ℤ) ≤ (c.2 : ℤ) := le_trans (le_max_right _ _) h3
  have g4 : (c.2 : ℤ) < (nx : ℤ) - 1 := lt_of_lt_of_le h4 (min_le_right _ _)
  omega

theorem interior_mem_viewCells {ny nx : ℕ} {sq : ℤ × ℤ} {c : ℕ × ℕ}
    (hc1 : sq.1 ≤ (c.2 : ℤ)) (hc2 : (c.2 : ℤ) < sq.1 + 80)
    (hc3 : sq.2 ≤ (c.1 : ℤ)) (hc4 : (c.1 : ℤ) < sq.2 + 80)
    (hi1 : 1 ≤ c.1) (hi2 : c.1 + 1 < ny) (hi3 : 1 ≤ c.2) (hi4 : c.2 + 1 < nx) :
    c ∈ viewCells ny nx 80 sq := by
  rw [mem_viewCells]
  refine ⟨max_le hc3 (by omega), lt_min hc4 (by omega),
          max_le hc1 (by omega), lt_min hc2 (by omega)⟩


theorem sea_step {H0 : ℕ → ℕ → ℚ} {ny nx : ℕ} {s : ℚ} {H : ℕ → ℕ → ℚ}
    (hInv : SeaInv H0 ny nx s H) {y x y' x' : ℕ} (hsea : Sea H0 ny nx y' x')
    (hadj : (y = y' + 1 ∧ x = x') ∨ (y' = y + 1 ∧ x = x') ∨
            (y = y' ∧ x = x' + 1) ∨ (y = y' ∧ x' = x + 1))
    (hyb : y < ny) (hxb : x < nx) (hneg : H y x ≤ 0) :
    Sea H0 ny nx y x := by
  by_cases hx : H y x = s
  · exact (hInv y x hyb hxb).1 hx
  · have h0 : H y x = H0 y x := (hInv y x hyb hxb).2 hx
    have hle : H0 y x ≤ 0 := by
      rw [← h0]
      exact hneg
    rcases hadj with ⟨h1, h2⟩ | ⟨h1, h2⟩ | ⟨h1, h2⟩ | ⟨h1, h2⟩
    · subst h1
      cases h2
      exact Sea.up y' x hsea hyb hxb hle
    · subst h1
      cases h2
      exact Sea.down y x hsea hyb hxb hle
    · subst h2
      cases h1
      exact Sea.right y x' hsea hyb hxb hle
    · cases h1
      subst h2
      exact Sea.left y x hsea hyb hxb hle

theorem sea_spread_right {H0 : ℕ → ℕ → ℚ} {ny nx : ℕ} {s : ℚ} {H : ℕ → ℕ → ℚ}
    (hInv : SeaInv H0 ny nx s H) (y : ℕ) :
    ∀ (k x : ℕ), Sea H0 ny nx y x →
      (∀ j, x ≤ j → j ≤ x + k → j < nx ∧ H y j < 0) → y < ny →
      Sea H0 ny nx y (x + k) := by
  intro k
  induction k with
  | zero => intro x hsea hcond hy; simpa using hsea
  | succ n ih =>
    intro x hsea hcond hy
    have hmid := ih x hsea (fun j h1 h2 => hcond j h1 (by omega)) hy
    exact sea_step hInv hmid (Or.inr (Or.inr (Or.inl ⟨rfl, rfl⟩))) hy
      (hcond (x + (n + 1)) (by omega) (by omega)).1
      (le_of_lt (hcond (x + (n + 1)) (by omega) (by omega)).2)

theorem sea_spread_left {H0 : ℕ → ℕ → ℚ} {ny nx : ℕ} {s : ℚ} {H : ℕ → ℕ → ℚ}
    (hInv : SeaInv H0 ny nx s H) (y : ℕ) :
    ∀ (k x : ℕ), Sea H0 ny nx y (x + k) →
      (∀ j, x ≤ j → j ≤ x + k → j < nx ∧ H y j < 0) → y < ny →
      Sea H0 ny nx y x := by
  intro k
  induction k with
  | zero => intro x hsea hcond hy; simpa using hsea
  | succ n ih =>
    intro x hsea hcond hy
    have he : x + (n + 1) = (x + 1) + n := by omega
    rw [he] at hsea
    have hmid := ih (x + 1) hsea (fun j h1 h2 => hcond j (by omega) (by omega)) hy
    exact sea_step hInv hmid (Or.inr (Or.inr (Or.inr ⟨rfl, rfl⟩))) hy
      (hcond x (by omega) (by omega)).1
      (le_of_lt (hcond x (by omega) (by omega)).2)

theorem sea_spread_up {H0 : ℕ → ℕ → ℚ} {ny nx : ℕ} {s : ℚ} {H : ℕ → ℕ → ℚ}
    (hInv : SeaInv H0 ny nx s H) (x : ℕ) :
    ∀ (k y : ℕ), Sea H0 ny nx y x →
      (∀ j, y ≤ j → j ≤ y + k → j < ny ∧ H j x < 0) → x < nx →
      Sea H0 ny nx (y + k) x := by
  intro k
  induction k with
  | zero => intro y hsea hcond hx; simpa using hsea
  | succ n ih =>
    intro y hsea hcond hx
    have hmid := ih y hsea (fun j h1 h2 => hcond j h1 (by omega)) hx
    exact sea_step hInv hmid (Or.inl ⟨rfl, rfl⟩)
      (hcond (y + (n + 1)) (by omega) (by omega)).1 hx
      (le_of_lt (hcond (y + (n + 1)) (by omega) (by omega)).2)

theorem sea_spread_down {H0 : ℕ → ℕ → ℚ} {ny nx : ℕ} {s : ℚ} {H : ℕ → ℕ → ℚ}
    (hInv : SeaInv H0 ny nx s H) (x : ℕ) :
    ∀ (k y : ℕ), Sea H0 ny nx (y + k) x →
      (∀ j, y ≤ j → j ≤ y + k → j < ny ∧ H j x < 0) → x < nx →
      Sea H0 ny nx y x := by
  intro k
  induction k with
  | zero => intro y hsea hcond hx; simpa using hsea
  | succ n ih =>
    intro y hsea hcond hx
    have he : y + (n + 1) = (y + 1) + n := by omega
    rw [he] at hsea
    have hmid := ih (y + 1) hsea (fun j h1 h2 => hcond j (by omega) (by omega)) hx
    exact sea_step hInv hmid (Or.inr (Or.inl ⟨rfl, rfl⟩))
      (hcond y (by omega) (by omega)).1 hx
      (le_of_lt (hcond y (by omega) (by omega)).2)


theorem allneg_view_sea {H0 : ℕ → ℕ → ℚ} {ny nx : ℕ} {s : ℚ} {H : ℕ → ℕ → ℚ}
    (hInv : SeaInv H0 ny nx s H) {sq : ℤ × ℤ}
    (hneg : allNegView H (viewCells ny nx 80 sq) = true)
    (hadj : anyAdjView H s (viewCells ny nx 80 sq) = true) :
    ∀ c ∈ viewCells ny nx 80 sq, Sea H0 ny nx c.1 c.2 := by
  simp only [allNegView, List.all_eq_true, decide_eq_true_eq] at hneg
  simp only [anyAdjView, List.any_eq_true, Bool.or_eq_true, decide_eq_true_eq] at hadj
  obtain ⟨c0, hc0mem, hc0dis⟩ := hadj
  have hb0 := viewCells_bounds hc0mem
  have hsea0 : Sea H0 ny nx c0.1 c0.2 := by
    rcases hc0dis with ((((h | h) | h) | h) | h)
    · exact (hInv c0.1 c0.2 (by omega) (by omega)).1 h
    · have hn : Sea H0 ny nx (c0.1 + 1) c0.2 := (hInv _ _ (by omega) (by omega)).1 h
      exact sea_step hInv hn (Or.inr (Or.inl ⟨rfl, rfl⟩)) (by omega) (by omega)
        (le_of_lt (hneg c0 hc0mem))
    · have hn : Sea H0 ny nx (c0.1 - 1) c0.2 := (hInv _ _ (by omega) (by omega)).1 h
      exact sea_step hInv hn (Or.inl ⟨by omega, rfl⟩) (by omega) (by omega)
        (le_of_lt (hneg c0 hc0mem))
    · have hn : Sea H0 ny nx c0.1 (c0.2 - 1) := (hInv _ _ (by omega) (by omega)).1 h
      exact sea_step hInv hn (Or.inr (Or.inr (Or.inl ⟨rfl, by omega⟩))) (by omega)
        (by omega) (le_of_lt (hneg c0 hc0mem))
    · have hn : Sea H0 ny nx c0.1 (c0.2 + 1) := (hInv _ _ (by omega) (by omega)).1 h
      exact sea_step hInv hn (Or.inr (Or.inr (Or.inr ⟨rfl, rfl⟩))) (by omega)
        (by omega) (le_of_lt (hneg c0 hc0mem))
  intro c hcmem
  have hbc := viewCells_bounds hcmem
  have m0 := (mem_viewCells ny nx 80 sq c0).mp hc0mem
  have m1 := (mem_viewCells ny nx 80 sq c).mp hcmem
  have hmidrow : ∀ j : ℕ, min c0.2 c.2 ≤ j → j ≤ max c0.2 c.2 →
      (c0.1, j) ∈ viewCells ny nx 80 sq := by
    intro j hj1 hj2
    refine (mem_viewCells ny nx 80 sq (c0.1, j)).mpr ?_
    refine ⟨m0.1, m0.2.1, ?_, ?_⟩ <;> omega
  have hmidcol : ∀ j : ℕ, min c0.1 c.1 ≤ j → j ≤ max c0.1 c.1 →
      (j, c.2) ∈ viewCells ny nx 80 sq := by
    intro j hj1 hj2
    refine (mem_viewCells ny nx 80 sq (j, c.2)).mpr ?_
    refine ⟨?_, ?_, m1.2.2.1, m1.2.2.2⟩ <;> omega
  have hseamid : Sea H0 ny nx c0.1 c.2 := by
    rcases le_total c0.2 c.2 with hle | hle
    · have hk : c.2 = c0.2 + (c.2 - c0.2) := by omega
      rw [hk]
      refine sea_spread_right hInv c0.1 (c.2 - c0.2) c0.2 hsea0 ?_ (by omega)
      intro j hj1 hj2
      have hjm : (c0.1, j) ∈ viewCells ny nx 80 sq := hmidrow j (by omega) (by omega)
      exact ⟨by omega, hneg _ hjm⟩
    · have hk : c0.2 = c.2 + (c0.2 - c.2) := by omega
      refine sea_spread_left hInv c0.1 (c0.2 - c.2) c.2 (by rw [← hk]; exact hsea0)
        ?_ (by omega)
      intro j hj1 hj2
      have hjm : (c0.1, j) ∈ viewCells ny nx 80 sq := hmidrow j (by omega) (by omega)
      exact ⟨by omega, hneg _ hjm⟩
  have hgoal : Sea H0 ny nx c.1 c.2 := by
    rcases le_total c0.1 c.1 with hle | hle
    · have hk : c.1 = c0.1 + (c.1 - c0.1) := by omega
      rw [hk]
      refine sea_spread_up hInv c.2 (c.1 - c0.1) c0.1 hseamid ?_ (by omega)
      intro j hj1 hj2
      have hjm : (j, c.2) ∈ viewCells ny nx 80 sq := hmidcol j (by omega) (by omega)
      exact ⟨by omega, hneg _ hjm⟩
    · have hk : c0.1 = c.1 + (c0.1 - c.1) := by omega
      refine sea_spread_down hInv c.2 (c0.1 - c.1) c.1 (by rw [← hk]; exact hseamid)
        ?_ (by omega)
      intro j hj1 hj2
      have hjm : (j, c.2) ∈ viewCells ny nx 80 sq := hmidcol j (by omega) (by omega)
      exact ⟨by omega, hneg _ hjm⟩
  exact hgoal


theorem eligCell_sea {H0 : ℕ → ℕ → ℚ} {ny nx : ℕ} {s : ℚ} {H : ℕ → ℕ → ℚ}
    (hInv : SeaInv H0 ny nx s H) {c : ℕ × ℕ}
    (hb : 1 ≤ c.1 ∧ c.1 + 1 < ny ∧ 1 ≤ c.2 ∧ c.2 + 1 < nx)
    (he : eligCell H s c = true) : Sea H0 ny nx c.1 c.2 := by
  simp only [eligCell, Bool.and_eq_true, Bool.or_eq_true, decide_eq_true_eq,
    Bool.not_eq_true', decide_eq_false_iff_not] at he
  obtain ⟨⟨hle, hne⟩, hnb⟩ := he
  rcases hnb with ((h | h) | h) | h
  · have hn : Sea H0 ny nx (c.1 + 1) c.2 := (hInv _ _ (by omega) (by omega)).1 h
    exact sea_step hInv hn (Or.inr (Or.inl ⟨rfl, rfl⟩)) (by omega) (by omega) hle
  · have hn : Sea H0 ny nx (c.1 - 1) c.2 := (hInv _ _ (by omega) (by omega)).1 h
    exact sea_step hInv hn (Or.inl ⟨by omega, rfl⟩) (by omega) (by omega) hle
  · have hn : Sea H0 ny nx c.1 (c.2 - 1) := (hInv _ _ (by omega) (by omega)).1 h
    exact sea_step hInv hn (Or.inr (Or.inr (Or.inl ⟨rfl, by omega⟩))) (by omega)
      (by omega) hle
  · have hn : Sea H0 ny nx c.1 (c.2 + 1) := (hInv _ _ (by omega) (by omega)).1 h
    exact sea_step hInv hn (Or.inr (Or.inr (Or.inr ⟨rfl, rfl⟩))) (by omega)
      (by omega) hle

theorem maskWrite_SeaInv {H0 : ℕ → ℕ → ℚ} {ny nx : ℕ} {s : ℚ} {H : ℕ → ℕ → ℚ}
    (hInv : SeaInv H0 ny nx s H) {cells : List (ℕ × ℕ)}
    (hsea : ∀ c ∈ cells, Sea H0 ny nx c.1 c.2) :
    SeaInv H0 ny nx s (maskWrite H cells s) := by
  intro y x hy hx
  unfold maskWrite
  by_cases hmem : (y, x) ∈ cells
  · rw [if_pos hmem]
    exact ⟨fun _ => hsea (y, x) hmem, fun hne => absurd rfl hne⟩
  · rw [if_neg hmem]
    exact hInv y x hy hx

theorem innerGo_SeaInv {H0 : ℕ → ℕ → ℚ} {ny nx : ℕ} {s : ℚ} {cells : List (ℕ × ℕ)}
    (hb : ∀ c ∈ cells, 1 ≤ c.1 ∧ c.1 + 1 < ny ∧ 1 ≤ c.2 ∧ c.2 + 1 < nx) :
    ∀ (fuel : ℕ) (H : ℕ → ℕ → ℚ) (ch : Bool), SeaInv H0 ny nx s H →
      SeaInv H0 ny nx s (innerGo s cells fuel H ch).1 := by
  intro fuel
  induction fuel with
  | zero => intro H ch hInv; simpa [innerGo] using hInv
  | succ n ih =>
    intro H ch hInv
    rw [innerGo]
    split
    · exact hInv
    · refine ih _ _ (maskWrite_SeaInv hInv ?_)
      intro c hc
      have hcc := List.mem_filter.mp hc
      exact eligCell_sea hInv (hb c hcc.1) hcc.2

theorem innerGo_mono_s {s : ℚ} {cells : List (ℕ × ℕ)} :
    ∀ (fuel : ℕ) (H : ℕ → ℕ → ℚ) (ch : Bool) (y x : ℕ), H y x = s →
      (innerGo s cells fuel H ch).1 y x = s := by
  intro fuel
  induction fuel with
  | zero => intro H ch y x h; simpa [innerGo] using h
  | succ n ih =>
    intro H ch y x h
    rw [innerGo]
    split
    · exact h
    · refine ih _ _ y x ?_
      unfold maskWrite
      split
      · rfl
      · exact h

theorem innerGo_pos {s : ℚ} {cells : List (ℕ × ℕ)} :
    ∀ (fuel : ℕ) (H : ℕ → ℕ → ℚ) (ch : Bool) (y x : ℕ), 0 < H y x →
      (innerGo s cells fuel H ch).1 y x = H y x := by
  intro fuel
  induction fuel with
  | zero => intro H ch y x h; simp [innerGo]
  | succ n ih =>
    intro H ch y x h
    rw [innerGo]
    split
    · rfl
    · have hval : maskWrite H (cells.filter (eligCell H s)) s y x = H y x := by
        unfold maskWrite
        rw [if_neg]
        intro hmem
        have hval2 := (List.mem_filter.mp hmem).2
        simp only [eligCell, Bool.and_eq_true, decide_eq_true_eq] at hval2
        have := hval2.1.1
        simp only at this
        linarith
      rw [ih _ _ y x (by rw [hval]; exact h), hval]

theorem innerGo_ch_true {s : ℚ} {cells : List (ℕ × ℕ)} :
    ∀ (fuel : ℕ) (H : ℕ → ℕ → ℚ), (innerGo s cells fuel H true).2 = true := by
  intro fuel
  induction fuel with
  | zero => intro H; simp [innerGo]
  | succ n ih =>
    intro H
    rw [innerGo]
    split
    · rfl
    · exact ih _

theorem innerGo_false {s : ℚ} {cells : List (ℕ × ℕ)} {fuel : ℕ} {H : ℕ → ℕ → ℚ}
    (h : (innerGo s cells (fuel + 1) H false).2 = false) :
    (innerGo s cells (fuel + 1) H false).1 = H ∧
      cells.filter (eligCell H s) = [] := by
  rw [innerGo] at h ⊢
  by_cases hn : (cells.filter (eligCell H s)).isEmpty
  · rw [if_pos hn] at h ⊢
    exact ⟨rfl, List.isEmpty_iff.mp hn⟩
  · rw [if_neg hn] at h
    rw [innerGo_ch_true] at h
    exact absurd h (by simp)


theorem anyAdj_false_elig {H : ℕ → ℕ → ℚ} {s : ℚ} {cells : List (ℕ × ℕ)}
    (h : anyAdjView H s cells = false) : cells.filter (eligCell H s) = [] := by
  rw [List.filter_eq_nil_iff]
  intro c hc
  simp only [anyAdjView, List.any_eq_false] at h
  have hcf := h c hc
  simp only [Bool.or_eq_true, decide_eq_true_eq, not_or] at hcf
  simp only [eligCell, Bool.and_eq_true, Bool.or_eq_true, decide_eq_true_eq,
    Bool.not_eq_true', decide_eq_false_iff_not]
  intro hcon
  rcases hcon.2 with ((h1 | h1) | h1) | h1 <;> tauto

theorem allPos_elig {H : ℕ → ℕ → ℚ} {s : ℚ} {cells : List (ℕ × ℕ)}
    (h : allPosView H cells = true) : cells.filter (eligCell H s) = [] := by
  rw [List.filter_eq_nil_iff]
  intro c hc
  simp only [allPosView, List.all_eq_true, decide_eq_true_eq] at h
  have hcf := h c hc
  simp only [eligCell, Bool.and_eq_true, decide_eq_true_eq]
  intro hcon
  linarith [hcon.1.1]

theorem passGo_spec {H0 : ℕ → ℕ → ℚ} {ny nx : ℕ} {s : ℚ} :
    ∀ (squares : List (ℤ × ℤ)) (H : ℕ → ℕ → ℚ), SeaInv H0 ny nx s H →
      SeaInv H0 ny nx s (passGo ny nx s H squares).1 ∧
      (∀ y x, H y x = s → (passGo ny nx s H squares).1 y x = s) ∧
      (∀ y x, 0 < H y x → (passGo ny nx s H squares).1 y x = H y x) ∧
      (∀ sq ∈ squares, sq ∈ (passGo ny nx s H squares).2.2 ∨
        ClosedView ny nx s (passGo ny nx s H squares).1 sq) ∧
      (∀ sq ∈ (passGo ny nx s H squares).2.2, sq ∈ squares) ∧
      ((passGo ny nx s H squares).2.1 = false →
        (∀ y x, (passGo ny nx s H squares).1 y x = H y x) ∧
        ∀ sq ∈ squares, (viewCells ny nx 80 sq).filter (eligCell H s) = []) := by
  intro squares
  induction squares with
  | nil =>
    intro H hInv
    refine ⟨hInv, ?_, ?_, ?_, ?_, ?_⟩ <;> simp [passGo]
  | cons sq rest ih =>
    intro H hInv
    by_cases hneg : allNegView H (viewCells ny nx 80 sq) = true
    · by_cases hadj : anyAdjView H s (viewCells ny nx 80 sq) = true
      · -- bulk-mark the whole view, skip the square
        have hres : passGo ny nx s H (sq :: rest) =
            ((passGo ny nx s (maskWrite H (viewCells ny nx 80 sq) s) rest).1, true,
             (passGo ny nx s (maskWrite H (viewCells ny nx 80 sq) s) rest).2.2) := by
          simp only [passGo, hneg, hadj, if_pos]
        have hsea := allneg_view_sea hInv hneg hadj
        have hInv1 := maskWrite_SeaInv hInv hsea
        obtain ⟨i1, i2, i3, i4, i5, i6⟩ := ih (maskWrite H (viewCells ny nx 80 sq) s) hInv1
        rw [hres]
        simp only
        have hmono : ∀ y x, H y x = s →
            maskWrite H (viewCells ny nx 80 sq) s y x = s := by
          intro y x h
          unfold maskWrite
          split <;> simp [h]
        have hposmw : ∀ y x, 0 < H y x →
            maskWrite H (viewCells ny nx 80 sq) s y x = H y x := by
          intro y x h
          unfold maskWrite
          rw [if_neg]
          intro hmem
          simp only [allNegView, List.all_eq_true, decide_eq_true_eq] at hneg
          linarith [hneg (y, x) hmem]
        refine ⟨i1, ?_, ?_, ?_, ?_, ?_⟩
        · intro y x h
          exact i2 y x (hmono y x h)
        · intro y x h
          rw [i3 y x (by rw [hposmw y x h]; exact h), hposmw y x h]
        · intro sq2 hsq2
          rcases List.mem_cons.mp hsq2 with rfl | hsq2r
          · right
            right
            intro c hc
            refine i2 c.1 c.2 ?_
            unfold maskWrite
            rw [if_pos]
            exact hc
          · rcases i4 sq2 hsq2r with hin | hcl
            · exact Or.inl hin
            · exact Or.inr hcl
        · intro sq2 hsq2
          exact List.mem_cons_of_mem _ (i5 sq2 hsq2)
        · intro hfalse
          exact absurd hfalse (by simp)
      · -- all negative but no masked neighbour yet: keep the square, no change
        have hb2 : anyAdjView H s (viewCells ny nx 80 sq) = false := by
          simpa using hadj
        have hres : passGo ny nx s H (sq :: rest) =
            ((passGo ny nx s H rest).1, (passGo ny nx s H rest).2.1,
             sq :: (passGo ny nx s H rest).2.2) := by
          simp only [passGo, hneg, if_pos, hb2]
          simp
        obtain ⟨i1, i2, i3, i4, i5, i6⟩ := ih H hInv
        rw [hres]
        simp only
        refine ⟨i1, i2, i3, ?_, ?_, ?_⟩
        · intro sq2 hsq2
          rcases List.mem_cons.mp hsq2 with rfl | hsq2r
          · exact Or.inl (List.mem_cons_self _ _)
          · rcases i4 sq2 hsq2r with hin | hcl
            · exact Or.inl (List.mem_cons_of_mem _ hin)
            · exact Or.inr hcl
        · intro sq2 hsq2
          rcases List.mem_cons.mp hsq2 with rfl | hsq2r
          · exact List.mem_cons_self _ _
          · exact List.mem_cons_of_mem _ (i5 sq2 hsq2r)
        · intro hfalse
          obtain ⟨j1, j2⟩ := i6 hfalse
          refine ⟨j1, ?_⟩
          intro sq2 hsq2
          rcases List.mem_cons.mp hsq2 with rfl | hsq2r
          · exact anyAdj_false_elig hb2
          · exact j2 sq2 hsq2r
    · by_cases hpos : allPosView H (viewCells ny nx 80 sq) = true
      · -- all positive: drop the square, no change
        have hres : passGo ny nx s H (sq :: rest) = passGo ny nx s H rest := by
          simp only [passGo, hneg, hpos, if_pos]
          simp
        obtain ⟨i1, i2, i3, i4, i5, i6⟩ := ih H hInv
        rw [hres]
        refine ⟨i1, i2, i3, ?_, ?_, ?_⟩
        · intro sq2 hsq2
          rcases List.mem_cons.mp hsq2 with rfl | hsq2r
          · right
            left
            intro c hc
            simp only [allPosView, List.all_eq_true, decide_eq_true_eq] at hpos
            rw [i3 c.1 c.2 (hpos c hc)]
            exact hpos c hc
          · exact i4 sq2 hsq2r
        · intro sq2 hsq2
          exact List.mem_cons_of_mem _ (i5 sq2 hsq2)
        · intro hfalse
          obtain ⟨j1, j2⟩ := i6 hfalse
          refine ⟨j1, ?_⟩
          intro sq2 hsq2
          rcases List.mem_cons.mp hsq2 with rfl | hsq2r
          · exact allPos_elig hpos
          · exact j2 sq2 hsq2r
      · -- mixed square: run the inner loop, keep the square
        have hres : passGo ny nx s H (sq :: rest) =
            ((passGo ny nx s (innerGo s (viewCells ny nx 80 sq) 1000 H false).1 rest).1,
             (innerGo s (viewCells ny nx 80 sq) 1000 H false).2 ||
               (passGo ny nx s (innerGo s (viewCells ny nx 80 sq) 1000 H false).1 rest).2.1,
             sq :: (passGo ny nx s
               (innerGo s (viewCells ny nx 80 sq) 1000 H false).1 rest).2.2) := by
          simp only [passGo, hneg, hpos]
          simp
        have hbnd : ∀ c ∈ viewCells ny nx 80 sq,
            1 ≤ c.1 ∧ c.1 + 1 < ny ∧ 1 ≤ c.2 ∧ c.2 + 1 < nx :=
          fun c hc => viewCells_bounds hc
        have hInv1 := innerGo_SeaInv hbnd 1000 H false hInv
        obtain ⟨i1, i2, i3, i4, i5, i6⟩ :=
          ih (innerGo s (viewCells ny nx 80 sq) 1000 H false).1 hInv1
        rw [hres]
        simp only
        refine ⟨i1, ?_, ?_, ?_, ?_, ?_⟩
        · intro y x h
          exact i2 y x (innerGo_mono_s 1000 H false y x h)
        · intro y x h
          have hv : (innerGo s (viewCells ny nx 80 sq) 1000 H false).1 y x = H y x :=
            innerGo_pos 1000 H false y x h
          rw [i3 y x (by rw [hv]; exact h), hv]
        · intro sq2 hsq2
          rcases List.mem_cons.mp hsq2 with rfl | hsq2r
          · exact Or.inl (List.mem_cons_self _ _)
          · rcases i4 sq2 hsq2r with hin | hcl
            · exact Or.inl (List.mem_cons_of_mem _ hin)
            · exact Or.inr hcl
        · intro sq2 hsq2
          rcases List.mem_cons.mp hsq2 with rfl | hsq2r
          · exact List.mem_cons_self _ _
          · exact List.mem_cons_of_mem _ (i5 sq2 hsq2r)
        · intro hfalse
          simp only [Bool.or_eq_false_iff] at hfalse
          obtain ⟨hin2, hr2⟩ := hfalse
          obtain ⟨k1, k2⟩ := @innerGo_false s (viewCells ny nx 80 sq) 999 H hin2
          obtain ⟨j1, j2⟩ := i6 hr2
          refine ⟨?_, ?_⟩
          · intro y x
            rw [j1 y x, k1]
          · intro sq2 hsq2
            rcases List.mem_cons.mp hsq2 with rfl | hsq2r
            · exact k2
            · rw [k1] at j2
              exact j2 sq2 hsq2r


theorem closed_mono {ny nx : ℕ} {s : ℚ} {H H2 : ℕ → ℕ → ℚ}
    (hmono : ∀ y x, H y x = s → H2 y x = s)
    (hpos : ∀ y x, 0 < H y x → H2 y x = H y x) {sq : ℤ × ℤ}
    (h : ClosedView ny nx s H sq) : ClosedView ny nx s H2 sq := by
  rcases h with h | h
  · left
    intro c hc
    rw [hpos c.1 c.2 (h c hc)]
    exact h c hc
  · right
    intro c hc
    exact hmono c.1 c.2 (h c hc)

theorem closed_elig {ny nx : ℕ} {s : ℚ} {H : ℕ → ℕ → ℚ} {sq : ℤ × ℤ}
    (h : ClosedView ny nx s H sq) :
    (viewCells ny nx 80 sq).filter (eligCell H s) = [] := by
  rw [List.filter_eq_nil_iff]
  intro c hc
  simp only [eligCell, Bool.and_eq_true, decide_eq_true_eq, Bool.not_eq_true',
    decide_eq_false_iff_not]
  rcases h with hp | hp
  · intro hcon
    linarith [hp c hc, hcon.1.1]
  · intro hcon
    exact hcon.1.2 (hp c hc)

theorem passGo_mono_s {ny nx : ℕ} {s : ℚ} :
    ∀ (squares : List (ℤ × ℤ)) (H : ℕ → ℕ → ℚ) (y x : ℕ), H y x = s →
      (passGo ny nx s H squares).1 y x = s := by
  intro squares
  induction squares with
  | nil => intro H y x h; simpa [passGo] using h
  | cons sq rest ih =>
    intro H y x h
    rw [passGo]
    split
    · split
      · refine ih _ y x ?_
        unfold maskWrite
        split <;> simp [h]
      · exact ih _ y x h
    · split
      · exact ih _ y x h
      · exact ih _ y x (innerGo_mono_s 1000 H false y x h)

theorem zGo_mono_s {ny nx : ℕ} {s : ℚ} :
    ∀ (fuel : ℕ) (H : ℕ → ℕ → ℚ) (squares : List (ℤ × ℤ)) (y x : ℕ), H y x = s →
      (zGo ny nx s fuel H squares).1 y x = s := by
  intro fuel
  induction fuel with
  | zero => intro H squares y x h; simpa [zGo] using h
  | succ n ih =>
    intro H squares y x h
    rw [zGo]
    split
    · exact passGo_mono_s squares H y x h
    · split
      · exact passGo_mono_s squares H y x h
      · exact ih _ _ y x (passGo_mono_s squares H y x h)

theorem zGo_spec {H0 : ℕ → ℕ → ℚ} {ny nx : ℕ} {s : ℚ} :
    ∀ (fuel : ℕ) (H : ℕ → ℕ → ℚ) (squares : List (ℤ × ℤ)),
      SeaInv H0 ny nx s H →
      (∀ sq ∈ spiralSquares ny nx 80, sq ∈ squares ∨ ClosedView ny nx s H sq) →
      (zGo ny nx s fuel H squares).2 = false →
      SeaInv H0 ny nx s (zGo ny nx s fuel H squares).1 ∧
      ∀ sq ∈ spiralSquares ny nx 80,
        (viewCells ny nx 80 sq).filter
          (eligCell (zGo ny nx s fuel H squares).1 s) = [] := by
  intro fuel
  induction fuel with
  | zero =>
    intro H squares hInv hacc hcap
    exact absurd hcap (by simp [zGo])
  | succ n ih =>
    intro H squares hInv hacc hcap
    obtain ⟨i1, i2, i3, i4, i5, i6⟩ := passGo_spec squares H hInv
    rw [zGo] at hcap ⊢
    by_cases hke : (passGo ny nx s H squares).2.2.isEmpty = true
    · rw [if_pos hke] at hcap ⊢
      refine ⟨i1, ?_⟩
      intro sq hsq
      have hclosed : ClosedView ny nx s (passGo ny nx s H squares).1 sq := by
        rcases hacc sq hsq with hin | hcl
        · rcases i4 sq hin with hkept | hcl2
          · rw [List.isEmpty_iff] at hke
            rw [hke] at hkept
            exact absurd hkept (List.not_mem_nil _)
          · exact hcl2
        · exact closed_mono i2 i3 hcl
      exact closed_elig hclosed
    · rw [if_neg hke] at hcap ⊢
      by_cases hch : (passGo ny nx s H squares).2.1 = false
      · rw [if_pos hch] at hcap ⊢
        refine ⟨i1, ?_⟩
        obtain ⟨j1, j2⟩ := i6 hch
        have hfe : (passGo ny nx s H squares).1 = H :=
          funext fun y => funext fun x => j1 y x
        intro sq hsq
        rw [hfe]
        rcases hacc sq hsq with hin | hcl
        · exact j2 sq hin
        · exact closed_elig hcl
      · rw [if_neg hch] at hcap ⊢
        refine ih (passGo ny nx s H squares).1 (passGo ny nx s H squares).2.2 i1 ?_ hcap
        intro sq hsq
        rcases hacc sq hsq with hin | hcl
        · rcases i4 sq hin with hkept | hcl2
          · exact Or.inl hkept
          · exact Or.inr hcl2
        · exact Or.inr (closed_mono i2 i3 hcl)


theorem borderForce_SeaInv {H0 : ℕ → ℕ → ℚ} {ny nx : ℕ} {s : ℚ}
    (hnc : ∀ y, y < ny → ∀ x, x < nx → H0 y x ≠ s) :
    SeaInv H0 ny nx s (borderForce H0 ny nx s) := by
  intro y x hy hx
  constructor
  · intro h
    unfold borderForce at h
    by_cases hcond : y < ny ∧ x < nx ∧ (y = 0 ∨ y = ny - 1 ∨ x = 0 ∨ x = nx - 1)
    · exact Sea.border y x hy hx hcond.2.2
    · rw [if_neg hcond] at h
      exact absurd h (hnc y hy x hx)
  · intro h
    unfold borderForce at h ⊢
    by_cases hcond : y < ny ∧ x < nx ∧ (y = 0 ∨ y = ny - 1 ∨ x = 0 ∨ x = nx - 1)
    · rw [if_pos hcond] at h
      exact absurd rfl h
    · rw [if_neg hcond]

theorem mask_step {H0 : ℕ → ℕ → ℚ} {ny nx : ℕ} {s : ℚ} {R : ℕ → ℕ → ℚ}
    (hInv : SeaInv H0 ny nx s R)
    (hfill : ∀ sq ∈ spiralSquares ny nx 80,
      (viewCells ny nx 80 sq).filter (eligCell R s) = [])
    (hbord : ∀ y x, y < ny → x < nx →
      (y = 0 ∨ y = ny - 1 ∨ x = 0 ∨ x = nx - 1) → R y x = s)
    {a b : ℕ} (ha : a < ny) (hb : b < nx) (hneg : H0 a b ≤ 0)
    (hnb : R (a + 1) b = s ∨ (0 < a ∧ R (a - 1) b = s) ∨
           (0 < b ∧ R a (b - 1) = s) ∨ R a (b + 1) = s) :
    R a b = s := by
  by_cases hbd : a = 0 ∨ a = ny - 1 ∨ b = 0 ∨ b = nx - 1
  · exact hbord a b ha hb hbd
  · by_contra hne
    have h0 : R a b = H0 a b := (hInv a b ha hb).2 hne
    push_neg at hbd
    obtain ⟨sq, hsq, hc1, hc2, hc3, hc4⟩ :=
      spiralSquares_cover ny nx (b : ℤ) (a : ℤ) (by omega) (by omega) (by omega) (by omega)
    have hmem : ((a : ℕ), b) ∈ viewCells ny nx 80 sq :=
      interior_mem_viewCells hc1 hc2 hc3 hc4
        (by show 1 ≤ a; omega) (by show a + 1 < ny; omega)
        (by show 1 ≤ b; omega) (by show b + 1 < nx; omega)
    have helig : eligCell R s (a, b) = true := by
      simp only [eligCell, Bool.and_eq_true, Bool.or_eq_true, decide_eq_true_eq,
        Bool.not_eq_true', decide_eq_false_iff_not]
      refine ⟨⟨by rw [h0]; exact hneg, hne⟩, ?_⟩
      rcases hnb with h | ⟨_, h⟩ | ⟨_, h⟩ | h
      · exact Or.inl (Or.inl (Or.inl h))
      · exact Or.inl (Or.inl (Or.inr h))
      · exact Or.inl (Or.inr h)
      · exact Or.inr h
    have hin : ((a : ℕ), b) ∈ (viewCells ny nx 80 sq).filter (eligCell R s) :=
      List.mem_filter.mpr ⟨hmem, helig⟩
    rw [hfill sq hsq] at hin
    exact absurd hin (List.not_mem_nil _)

theorem setSeaLevel_iff {H0 : ℕ → ℕ → ℚ} {ny nx : ℕ} {s : ℚ}
    (hnc : ∀ y, y < ny → ∀ x, x < nx → H0 y x ≠ s)
    (hcap : (setSeaLevel H0 ny nx s).2 = false) :
    ∀ y x, y < ny → x < nx →
      ((setSeaLevel H0 ny nx s).1 y x = s ↔ Sea H0 ny nx y x) := by
  unfold setSeaLevel at hcap ⊢
  obtain ⟨hInv, hfill⟩ := zGo_spec 100 (borderForce H0 ny nx s) (spiralSquares ny nx 80)
    (borderForce_SeaInv hnc) (fun sq hsq => Or.inl hsq) hcap
  have hbord : ∀ y x, y < ny → x < nx →
      (y = 0 ∨ y = ny - 1 ∨ x = 0 ∨ x = nx - 1) →
      (zGo ny nx s 100 (borderForce H0 ny nx s) (spiralSquares ny nx 80)).1 y x = s := by
    intro y x hy hx hb
    apply zGo_mono_s
    unfold borderForce
    rw [if_pos ⟨hy, hx, hb⟩]
  intro y x hy hx
  refine ⟨fun h => (hInv y x hy hx).1 h, fun hsea => ?_⟩
  clear hy hx
  induction hsea with
  | border y x hy hx hb => exact hbord y x hy hx hb
  | up y x _ hy hx hneg ih =>
      exact mask_step hInv hfill hbord hy hx hneg (Or.inr (Or.inl ⟨Nat.succ_pos y, ih⟩))
  | down y x _ hy hx hneg ih =>
      exact mask_step hInv hfill hbord hy hx hneg (Or.inl ih)
  | right y x _ hy hx hneg ih =>
      exact mask_step hInv hfill hbord hy hx hneg
        (Or.inr (Or.inr (Or.inl ⟨Nat.succ_pos x, ih⟩)))
  | left y x _ hy hx hneg ih =>
      exact mask_step hInv hfill hbord hy hx hneg (Or.inr (Or.inr (Or.inr ih)))

theorem mem_gridCells {ny nx : ℕ} {c : ℕ × ℕ} :
    c ∈ gridCells ny nx ↔ c.1 < ny ∧ c.2 < nx := by
  simp [gridCells, Finset.mem_product]

theorem iter_subset_grid {H0 : ℕ → ℕ → ℚ} {ny nx : ℕ} :
    ∀ n, (bfsStep H0 ny nx)^[n] (borderSeed ny nx) ⊆ gridCells ny nx := by
  intro n
  induction n with
  | zero => exact Finset.filter_subset _ _
  | succ n ih =>
      rw [Function.iterate_succ_apply']
      exact Finset.union_subset ih (Finset.filter_subset _ _)

theorem seed_subset_iter {H0 : ℕ → ℕ → ℚ} {ny nx : ℕ} :
    ∀ n, borderSeed ny nx ⊆ (bfsStep H0 ny nx)^[n] (borderSeed ny nx) := by
  intro n
  induction n with
  | zero => exact subset_rfl
  | succ n ih =>
      rw [Function.iterate_succ_apply']
      exact ih.trans Finset.subset_union_left

theorem iter_sound {H0 : ℕ → ℕ → ℚ} {ny nx : ℕ} :
    ∀ n (c : ℕ × ℕ), c ∈ (bfsStep H0 ny nx)^[n] (borderSeed ny nx) →
      Sea H0 ny nx c.1 c.2 := by
  intro n
  induction n with
  | zero =>
      rintro ⟨a, b⟩ h
      simp only [Function.iterate_zero_apply, borderSeed, Finset.mem_filter,
        mem_gridCells] at h
      exact Sea.border a b h.1.1 h.1.2 h.2
  | succ n ih =>
      rintro ⟨a, b⟩ h
      simp only [Function.iterate_succ_apply', bfsStep, Finset.mem_union,
        Finset.mem_filter, mem_gridCells] at h
      rcases h with h | ⟨⟨ha, hb⟩, hneg, hadj⟩
      · exact ih _ h
      · rcases hadj with h1 | ⟨hp, h1⟩ | ⟨hp, h1⟩ | h1
        · exact Sea.down a b (ih _ h1) ha hb hneg
        · obtain ⟨a2, rfl⟩ : ∃ a2, a = a2 + 1 := ⟨a - 1, by omega⟩
          exact Sea.up a2 b (ih _ h1) ha hb hneg
        · obtain ⟨b2, rfl⟩ : ∃ b2, b = b2 + 1 := ⟨b - 1, by omega⟩
          exact Sea.right a b2 (ih _ h1) ha hb hneg
        · exact Sea.left a b (ih _ h1) ha hb hneg

theorem bfs_fixpoint (H0 : ℕ → ℕ → ℚ) (ny nx : ℕ) :
    bfsStep H0 ny nx (bfsForcedMask H0 ny nx) = bfsForcedMask H0 ny nx := by
  have grow : ∀ n,
      (∃ m, m ≤ n ∧ bfsStep H0 ny nx ((bfsStep H0 ny nx)^[m] (borderSeed ny nx)) =
        (bfsStep H0 ny nx)^[m] (borderSeed ny nx)) ∨
      n ≤ ((bfsStep H0 ny nx)^[n] (borderSeed ny nx)).card := by
    intro n
    induction n with
    | zero => exact Or.inr (Nat.zero_le _)
    | succ n ih =>
        rcases ih with ⟨m, hm, hfx⟩ | hn
        · exact Or.inl ⟨m, hm.trans (Nat.le_succ n), hfx⟩
        · by_cases hfx : bfsStep H0 ny nx ((bfsStep H0 ny nx)^[n] (borderSeed ny nx)) =
              (bfsStep H0 ny nx)^[n] (borderSeed ny nx)
          · exact Or.inl ⟨n, Nat.le_succ n, hfx⟩
          · right
            have hss : (bfsStep H0 ny nx)^[n] (borderSeed ny nx) ⊂
                (bfsStep H0 ny nx)^[n + 1] (borderSeed ny nx) := by
              rw [Function.iterate_succ_apply']
              exact Finset.ssubset_iff_subset_ne.mpr
                ⟨Finset.subset_union_left, fun h => hfx h.symm⟩
            have hlt := Finset.card_lt_card hss
            omega
  have hstab : ∀ m,
      bfsStep H0 ny nx ((bfsStep H0 ny nx)^[m] (borderSeed ny nx)) =
        (bfsStep H0 ny nx)^[m] (borderSeed ny nx) →
      ∀ k, (bfsStep H0 ny nx)^[m + k] (borderSeed ny nx) =
        (bfsStep H0 ny nx)^[m] (borderSeed ny nx) := by
    intro m hfx k
    induction k with
    | zero => rfl
    | succ k ih =>
        rw [show m + (k + 1) = (m + k) + 1 by omega, Function.iterate_succ_apply', ih, hfx]
  rcases grow (ny * nx) with ⟨m, hm, hfx⟩ | hcard
  · have h1 : (bfsStep H0 ny nx)^[ny * nx] (borderSeed ny nx) =
        (bfsStep H0 ny nx)^[m] (borderSeed ny nx) := by
      rw [show ny * nx = m + (ny * nx - m) by omega]
      exact hstab m hfx _
    unfold bfsForcedMask
    rw [h1]
    exact hfx
  · have hle : ((bfsStep H0 ny nx)^[ny * nx] (borderSeed ny nx)).card ≤
        (gridCells ny nx).card := Finset.card_le_card (iter_subset_grid _)
    have hgc : (gridCells ny nx).card = ny * nx := by
      simp [gridCells]
    have heq : (bfsStep H0 ny nx)^[ny * nx] (borderSeed ny nx) = gridCells ny nx :=
      Finset.eq_of_subset_of_card_le (iter_subset_grid _) (by omega)
    unfold bfsForcedMask
    rw [heq]
    unfold bfsStep
    exact Finset.Subset.antisymm
      (Finset.union_subset subset_rfl (Finset.filter_subset _ _))
      Finset.subset_union_left

theorem bfs_complete {H0 : ℕ → ℕ → ℚ} {ny nx : ℕ} {y x : ℕ}
    (h : Sea H0 ny nx y x) : (y, x) ∈ bfsForcedMask H0 ny nx := by
  induction h with
  | border y x hy hx hb =>
      apply seed_subset_iter (ny * nx)
      simp only [borderSeed, Finset.mem_filter, mem_gridCells]
      exact ⟨⟨hy, hx⟩, hb⟩
  | up y x _ hy hx hneg ih =>
      rw [← bfs_fixpoint H0 ny nx]
      simp only [bfsStep, Finset.mem_union, Finset.mem_filter, mem_gridCells]
      exact Or.inr ⟨⟨hy, hx⟩, hneg, Or.inr (Or.inl ⟨Nat.succ_pos y, ih⟩)⟩
  | down y x _ hy hx hneg ih =>
      rw [← bfs_fixpoint H0 ny nx]
      simp only [bfsStep, Finset.mem_union, Finset.mem_filter, mem_gridCells]
      exact Or.inr ⟨⟨hy, hx⟩, hneg, Or.inl ih⟩
  | right y x _ hy hx hneg ih =>
      rw [← bfs_fixpoint H0 ny nx]
      simp only [bfsStep, Finset.mem_union, Finset.mem_filter, mem_gridCells]
      exact Or.inr ⟨⟨hy, hx⟩, hneg, Or.inr (Or.inr (Or.inl ⟨Nat.succ_pos x, ih⟩))⟩
  | left y x _ hy hx hneg ih =>
      rw [← bfs_fixpoint H0 ny nx]
      simp only [bfsStep, Finset.mem_union, Finset.mem_filter, mem_gridCells]
      exact Or.inr ⟨⟨hy, hx⟩, hneg, Or.inr (Or.inr (Or.inr ih))⟩

/-- C1 (amended): for every raster in which no cell already carries the
sentinel value `s`, provided the `zmax = 100` pass cap is not hit, the
mask computed by the tiled spiral flood fill `set_sea_level` (the cells
set to `s`) is exactly the border-forced whole-grid BFS flood fill: the
fill is seeded by the ENTIRE one-cell border (regardless of sign, because
`set_sea_level` unconditionally overwrites the border with `s`) and spreads
through 4-connected non-positive cells. -/
theorem c1_amended (H0 : ℕ → ℕ → ℚ) (ny nx : ℕ) (s : ℚ)
    (hnc : ∀ y < ny, ∀ x < nx, H0 y x ≠ s)
    (hcap : (setSeaLevel H0 ny nx s).2 = false) :
    ∀ y < ny, ∀ x < nx,
      ((setSeaLevel H0 ny nx s).1 y x = s ↔ (y, x) ∈ bfsForcedMask H0 ny nx) := by
  intro y hy x hx
  rw [setSeaLevel_iff hnc hcap y x hy hx]
  exact ⟨fun h => bfs_complete h, fun h => iter_sound (ny * nx) (y, x) h⟩


/-- C1 (counterexample): on a 3 by 3 raster of constant height 5 (every
cell strictly positive) with sentinel -100, the tiled fill marks the
border cell (0, 0) as sea, whereas the plain BFS flood fill of the claim
(seeded only by non-positive border cells, per the spec) marks nothing:
the tiling strategy does change the resulting mask. -/
theorem c1_counterexample :
    (setSeaLevel (fun _ _ => (5 : ℚ)) 3 3 (-100)).1 0 0 = -100 ∧
    (0, 0) ∉ bfsPlainMask (fun _ _ => (5 : ℚ)) 3 3 := by
  decide

/-- C1 (witness): the amended theorem applied to the concrete 4 by 4 test
raster with sentinel -100, all hypotheses discharged by evaluation. -/
theorem c1_amended_witness :
    (∀ y < 4, ∀ x < 4, seaWitnessRaster y x ≠ (-100 : ℚ)) ∧
    (setSeaLevel seaWitnessRaster 4 4 (-100)).2 = false ∧
    ((setSeaLevel seaWitnessRaster 4 4 (-100)).1 1 1 = -100 ↔
      (1, 1) ∈ bfsForcedMask seaWitnessRaster 4 4) :=
  ⟨by decide, by decide,
    c1_amended seaWitnessRaster 4 4 (-100) (by decide) (by decide)
      1 (by decide) 1 (by decide)⟩

end Nevis
